import Mathlib

/-!
Verification of the component-tree weight-initialization protocol of the
`perceptia` repository (`src/perceptia/modules/base_module.py`).

The shallow embedding below translates `BaseModule.__init__`,
`BaseModule.init_weights` and `BaseModule._finalize_init` into Lean.
The rule-dispatch collaborator (`initialize`, `update_init_info`,
`PretrainedInit` from the `initialization` module) is not part of the
sources; those operations are modelled from the specification and are
marked as such in their doc comments.

Python's mutable heap state is made explicit: the component tree is a
value of the nested inductive type `Module`; the single shared tracking
dictionary, the logging side effects (rule applications, warnings,
provenance reports) live in a `Global` record that is threaded through
the traversal.  An exception (`DispatchError`) is modelled by a Boolean
error flag in the result together with the mutated state at the moment
the exception propagates, which is exactly what a Python caller observes.
-/

namespace Perceptia

/-- An initialization rule (one `init_cfg` dict).  `isPretrained` models
`cfg.get("type") in {"Pretrained", PretrainedInit}`; `fails` marks rules whose
dispatch raises (the engine treats dispatch as an opaque fallible operation);
`rid` is the opaque payload of the rule. -/
structure Rule where
  isPretrained : Bool
  fails : Bool
  rid : Nat
deriving DecidableEq, Repr

/-- The `init_cfg` constructor argument: `None`, a single dict, or a list of
dicts (`Union[dict, list[dict], None]`). -/
inductive InitCfg where
| noCfg : InitCfg
| single (r : Rule) : InitCfg
| ofList (rs : List Rule) : InitCfg
deriving DecidableEq, Repr

/-- A leaf parameter: `pid` is its identity (the dict key used by
`_params_init_info`, which is keyed by the parameter object), `value` its
current numeric content (standing for `param.data`, whose mean is the
snapshot statistic). -/
structure Param where
  pid : Nat
  value : Nat
deriving DecidableEq, Repr

/-- One entry of the tracking map `_params_init_info`: the `init_info`
description string and the `tmp_mean_value` snapshot. -/
structure TrackEntry where
  initInfo : String
  tmpMean : Nat
deriving DecidableEq, Repr

/-- The shared tracking dictionary, keyed by parameter identity. -/
abbrev TrackMap := List (Nat × TrackEntry)

/-- Observable events of one run: a rule application dispatched on the node at
a given tree position, or the double-initialization warning
(`"<name>.init_weights() called multiple times."`). -/
inductive Event where
| applyRule (path : List Nat) (r : Rule) : Event
| warn (msg : String) : Event
deriving DecidableEq, Repr

/-- The process-global mutable state threaded through a run: the single shared
tracking map contents, the log of rule applications and warnings, and the
provenance reports emitted by `_finalize_init` (one report per finalization,
each a list of `(parameter identity, init_info)` lines). -/
structure Global where
  tracking : TrackMap
  events : List Event
  reports : List (List (Nat × String))
deriving DecidableEq, Repr

/-- The empty global state before any call. -/
def emptyGlobal : Global := { tracking := [], events := [], reports := [] }

/-- A component node (`BaseModule` instance): class name, the deep-copied
`init_cfg`, the `_is_init` flag, whether `_params_init_info` is currently
installed on this node (`hasattr(self, "_params_init_info")`), the directly
owned parameters, and the child modules in declaration order. -/
inductive Module where
| mk (name : String) (cfg : InitCfg) (isInit : Bool) (hasTracking : Bool)
     (params : List Param) (children : List Module) : Module

mutual

/-- Structural Boolean equality on trees (deriving is unavailable for nested
inductives). -/
def mbeq : Module → Module → Bool
| .mk n1 c1 i1 t1 p1 cs1, .mk n2 c2 i2 t2 p2 cs2 =>
  n1 == n2 && c1 == c2 && i1 == i2 && t1 == t2 && p1 == p2 && lbeq cs1 cs2

/-- Structural Boolean equality on forests. -/
def lbeq : List Module → List Module → Bool
| [], [] => true
| c :: r, d :: s => mbeq c d && lbeq r s
| _, _ => false

end

mutual

theorem mbeq_iff : ∀ a b : Module, mbeq a b = true ↔ a = b
| .mk n1 c1 i1 t1 p1 cs1, .mk n2 c2 i2 t2 p2 cs2 => by
  simp [mbeq, lbeq_iff cs1 cs2, Module.mk.injEq, and_assoc]

theorem lbeq_iff : ∀ a b : List Module, lbeq a b = true ↔ a = b
| [], [] => by simp [lbeq]
| [], _ :: _ => by simp [lbeq]
| _ :: _, [] => by simp [lbeq]
| c :: r, d :: s => by simp [lbeq, mbeq_iff c d, lbeq_iff r s]

end

instance : DecidableEq Module := fun a b => decidable_of_iff (mbeq a b = true) (mbeq_iff a b)

def Module.name : Module → String
| .mk n _ _ _ _ _ => n

def Module.cfg : Module → InitCfg
| .mk _ c _ _ _ _ => c

def Module.isInit : Module → Bool
| .mk _ _ i _ _ _ => i

def Module.hasTracking : Module → Bool
| .mk _ _ _ t _ _ => t

def Module.params : Module → List Param
| .mk _ _ _ _ ps _ => ps

def Module.children : Module → List Module
| .mk _ _ _ _ _ cs => cs

mutual

/-- Number of nodes of the tree (used as recursion fuel for the engine). -/
def mcount : Module → Nat
| .mk _ _ _ _ _ cs => lcount cs + 1

/-- Number of nodes of a forest. -/
def lcount : List Module → Nat
| [] => 0
| c :: rest => mcount c + lcount rest

end

mutual

/-- Parameters of the subtree in `named_parameters()` order: the node's own
parameters first, then each child subtree in declaration order. -/
def allParams : Module → List Param
| .mk _ _ _ _ ps cs => ps ++ allParamsList cs

/-- Parameters of a forest in declaration order. -/
def allParamsList : List Module → List Param
| [] => []
| c :: rest => allParams c ++ allParamsList rest

end

mutual

/-- Sets the `hasTracking` flag on every node of the subtree; models the walk
`for m in self.modules(): m._params_init_info = ...` (flag `true`) and the
teardown `for m in self.modules(): del m._params_init_info` (flag `false`). -/
def setTrackingAll (b : Bool) : Module → Module
| .mk n c i _ ps cs => .mk n c i b ps (setTrackingList b cs)

/-- Sets the `hasTracking` flag on every node of a forest. -/
def setTrackingList (b : Bool) : List Module → List Module
| [] => []
| c :: rest => setTrackingAll b c :: setTrackingList b rest

end

/-- Effective rule list of an `init_cfg`: Python's
`cfgs = self.init_cfg if isinstance(self.init_cfg, list) else [self.init_cfg]`
guarded by the truthiness test `if self.init_cfg:` (a `None` value and an
empty list are falsy, so they contribute no rules). -/
def cfgRules : InitCfg → List Rule
| .noCfg => []
| .single r => [r]
| .ofList rs => rs

/-- Splits a rule list exactly as the loop in `init_weights` does: rules whose
type is Pretrained go to the second component, every other rule to the first,
each group keeping its original relative order. -/
def splitRules : List Rule → List Rule × List Rule
| [] => ([], [])
| r :: rest =>
  let p := splitRules rest
  if r.isPretrained then (p.1, r :: p.2) else (r :: p.1, p.2)

/-- Default provenance description installed for every parameter at top-level
entry (the f-string on line 55 of `base_module.py`); `n` is
`self.__class__.__name__` of the module on which the top-level call was made. -/
def defaultInfo (n : String) : String :=
  "The value is unchanged before and after `init_weights` of " ++ n

/-- The double-initialization warning message (line 64 of `base_module.py`). -/
def warnMsg (n : String) : String :=
  n ++ ".init_weights() called multiple times."

/-- Description recorded for a successfully dispatched rule.  Modelled from
the spec: the dispatch collaborator returns a human-readable provenance
description for the applied rule ("initialized by rule X"). -/
def ruleInfo (r : Rule) : String :=
  "Initialized by rule " ++ toString r.rid

/-- Description set on a child's parameters after its recursive pass
(line 92 of `base_module.py`). -/
def childInfo (n : String) : String :=
  "Initialized by user-defined init_weights in " ++ n

/-- Entries created at tracking installation (lines 53-57 of
`base_module.py`): one entry per parameter of the whole subtree, with the
default description naming the top-level module and the pre-initialization
snapshot of the parameter's current value. -/
def installEntries (n : String) (ps : List Param) (cs : List Module) : TrackMap :=
  (ps ++ allParamsList cs).map
    (fun pr => (pr.pid, { initInfo := defaultInfo n, tmpMean := pr.value }))

/-- Overwrites the description of the given parameter identities, leaving the
snapshot untouched.  Modelled from the spec: a dispatched rule updates the
corresponding provenance entries' descriptions; the snapshot statistic is used
only for reporting. -/
def updateInfo (tm : TrackMap) (pids : List Nat) (info : String) : TrackMap :=
  tm.map (fun e => if pids.contains e.1 then (e.1, { initInfo := info, tmpMean := e.2.tmpMean }) else e)

/-- Modelled from the spec: `update_init_info(target, init_info)` from the
missing `initialization` module.  For every parameter of the target subtree
whose current value differs from its recorded snapshot (i.e. the child
performed its own initialization work), the description is replaced; nothing
else changes. -/
def updateInitInfo (tm : TrackMap) (target : Module) (info : String) : TrackMap :=
  (allParams target).foldl
    (fun acc pr =>
      acc.map (fun e =>
        if e.1 = pr.pid ∧ e.2.tmpMean ≠ pr.value then (e.1, { initInfo := info, tmpMean := e.2.tmpMean }) else e))
    tm

/-- Modelled from the spec: `initialize(self, cfgs)` from the missing
`initialization` module.  Applies the rules in order to the node's own
parameters; a successful dispatch sets the parameters' values from the rule's
payload, records the provenance description and logs the application; a
failing dispatch raises (error flag `true`) leaving the remaining rules
unapplied.  `p` is the tree position of the node, used to label the log. -/
def runRules (p : List Nat) : List Rule → Global → List Param → Global × List Param × Bool
| [], g, ps => (g, ps, false)
| r :: rest, g, ps =>
  if r.fails then (g, ps, true)
  else
    let ps2 := ps.map (fun pr => { pr with value := r.rid })
    let g2 : Global :=
      { tracking := updateInfo g.tracking (ps.map (fun pr => pr.pid)) (ruleInfo r),
        events := g.events ++ [Event.applyRule p r],
        reports := g.reports }
    runRules p rest g2 ps2

/-- Looks up the recorded description of a parameter (the read
`self._params_init_info[param]["init_info"]` in `_finalize_init`). -/
def lookupInfo (tm : TrackMap) (pid : Nat) : String :=
  match tm.find? (fun e => e.1 == pid) with
  | some e => e.2.initInfo
  | none => ""

/-- Embedding of `BaseModule._finalize_init`: emit one provenance record per
parameter of the subtree (in `named_parameters()` order), then delete the
tracking attribute from every node of the subtree. -/
def finalizeInit (g : Global) (m : Module) : Global × Module :=
  let rep := (allParams m).map (fun pr => (pr.pid, lookupInfo g.tracking pr.pid))
  ({ g with reports := g.reports ++ [rep] }, setTrackingAll false m)

/-- The child loop of `init_weights` (lines 87-93): children are visited in
declaration order; a child whose `is_init` is already true is skipped
entirely; otherwise the engine `f` is invoked on it and, on success,
`update_init_info` is applied to the child subtree; a failure propagates
immediately, leaving the remaining children untouched.  `p` is the position
of the parent, `i` the index of the first child of the list. -/
def childLoop (f : List Nat → Global → Module → Global × Module × Bool)
    (p : List Nat) : Nat → Global → List Module → Global × List Module × Bool
| _, g, [] => (g, [], false)
| i, g, c :: rest =>
  if c.isInit then
    let r := childLoop f p (i + 1) g rest
    (r.1, c :: r.2.1, r.2.2)
  else
    let r0 := f (p ++ [i]) g c
    if r0.2.2 then (r0.1, r0.2.1 :: rest, true)
    else
      let g2 := { r0.1 with tracking := updateInitInfo r0.1.tracking r0.2.1 (childInfo r0.2.1.name) }
      let r := childLoop f p (i + 1) g2 rest
      (r.1, r0.2.1 :: r.2.1, r.2.2)

/-- Fuel-indexed embedding of `BaseModule.init_weights`.  The fuel only bounds
the recursion depth (the wrapper `initWeights` below always supplies enough);
every other aspect mirrors the Python source line by line: top-level detection
by `hasattr`, eager installation of the tracking map on the whole subtree,
the idempotency guard with its warning and top-level-only finalization, rule
partitioning, standard phase, child loop, pretrained phase, setting
`_is_init`, and top-level-only finalization; an exception anywhere propagates
immediately, returning the state mutated so far with the error flag set. -/
def initWeightsF : Nat → List Nat → Global → Module → Global × Module × Bool
| 0, _, g, m => (g, m, true)
| Nat.succ n, p, g, m =>
  match m with
  | .mk name cfg inited hasTr ps cs =>
    let isTop := !hasTr
    let g1 := if hasTr then g else { g with tracking := installEntries name ps cs }
    let cs1 := if hasTr then cs else setTrackingList true cs
    if inited then
      let g2 := { g1 with events := g1.events ++ [Event.warn (warnMsg name)] }
      if isTop then
        let fz := finalizeInit g2 (Module.mk name cfg inited true ps cs1)
        (fz.1, fz.2, false)
      else (g2, Module.mk name cfg inited true ps cs1, false)
    else
      let sp := splitRules (cfgRules cfg)
      let r1 := runRules p sp.1 g1 ps
      if r1.2.2 then (r1.1, Module.mk name cfg inited true r1.2.1 cs1, true)
      else
        let rc := childLoop (initWeightsF n) p 0 r1.1 cs1
        if rc.2.2 then (rc.1, Module.mk name cfg inited true r1.2.1 rc.2.1, true)
        else
          let r2 := runRules p sp.2 rc.1 r1.2.1
          if r2.2.2 then (r2.1, Module.mk name cfg inited true r2.2.1 rc.2.1, true)
          else
            let m2 := Module.mk name cfg true true r2.2.1 rc.2.1
            if isTop then
              let fz := finalizeInit r2.1 m2
              (fz.1, fz.2, false)
            else (r2.1, m2, false)

/-- Embedding of `BaseModule.init_weights` called on a node: the node count of
the subtree bounds the recursion depth, so the fuel never runs out. -/
def initWeights (p : List Nat) (g : Global) (m : Module) : Global × Module × Bool :=
  initWeightsF (mcount m) p g m

mutual

/-- True when every node of the subtree has `isInit = true`. -/
def allInit : Module → Bool
| .mk _ _ i _ _ cs => i && allInitList cs

/-- True when every node of the forest has `isInit = true`. -/
def allInitList : List Module → Bool
| [] => true
| c :: rest => allInit c && allInitList rest

end

mutual

/-- True when every node of the subtree has `isInit = false` (a fresh,
never-initialized tree). -/
def allUninit : Module → Bool
| .mk _ _ i _ _ cs => !i && allUninitList cs

/-- True when every node of the forest has `isInit = false`. -/
def allUninitList : List Module → Bool
| [] => true
| c :: rest => allUninit c && allUninitList rest

end

mutual

/-- True when every node of the subtree has `hasTracking = b`: with `b = false`
the tracking map is absent from every node, with `b = true` it is installed on
every node. -/
def allTracking (b : Bool) : Module → Bool
| .mk _ _ _ t _ cs => (t == b) && allTrackingList b cs

/-- Forest version of `allTracking`. -/
def allTrackingList (b : Bool) : List Module → Bool
| [] => true
| c :: rest => allTracking b c && allTrackingList b rest

end

mutual

/-- True when no node of the subtree contributes any initialization rule
(absent or empty `init_cfg` everywhere). -/
def noRulesAll : Module → Bool
| .mk _ c _ _ _ cs => (cfgRules c).isEmpty && noRulesList cs

/-- Forest version of `noRulesAll`. -/
def noRulesList : List Module → Bool
| [] => true
| c :: rest => noRulesAll c && noRulesList rest

end

/-- The node of a tree at a position given by child indices (declaration
order). -/
def nodeAt : Module → List Nat → Option Module
| m, [] => some m
| m, i :: p =>
  match m.children.get? i with
  | some c => nodeAt c p
  | none => none

/-- The `isInit` flag of the node at a position (`false` off the tree). -/
def isInitAt (m : Module) (q : List Nat) : Bool :=
  match nodeAt m q with
  | some n => n.isInit
  | none => false

/-- Compares two tree positions in depth-first (post-order, i.e. completion
order) traversal: `postLater p q` is true when the node at `q` is visited
strictly after the node at `p` completes.  A proper ancestor completes later
than any of its descendants, and at the first diverging child index the larger
index completes later. -/
def postLater : List Nat → List Nat → Bool
| _ :: _, [] => true
| [], _ => false
| a :: p, b :: q => if a = b then postLater p q else decide (a < b)

mutual

/-- Expected event log of one call, written after the specification's
ordering clause: an already-initialized node contributes exactly its warning;
otherwise the node's Standard (non-Pretrained) rules are applied in original
order, then the children are processed recursively in declaration order
(already-initialized children are skipped silently), then the node's Override
(Pretrained) rules are applied in original order. -/
def specTrace (p : List Nat) : Module → List Event
| .mk name cfg inited _ _ cs =>
  if inited then [Event.warn (warnMsg name)]
  else
    (splitRules (cfgRules cfg)).1.map (Event.applyRule p) ++
    specChildren p 0 cs ++
    (splitRules (cfgRules cfg)).2.map (Event.applyRule p)

/-- Expected event log of the child loop, children numbered from `i`. -/
def specChildren (p : List Nat) : Nat → List Module → List Event
| _, [] => []
| i, c :: rest =>
  (if c.isInit then [] else specTrace (p ++ [i]) c) ++ specChildren p (i + 1) rest

end

theorem mcount_pos : ∀ m : Module, 1 ≤ mcount m
| .mk _ _ _ _ _ cs => by simp [mcount]

theorem setTrackingList_eq_map (b : Bool) :
    ∀ cs : List Module, setTrackingList b cs = cs.map (setTrackingAll b)
| [] => rfl
| c :: rest => by simp [setTrackingList, setTrackingList_eq_map b rest]

mutual

theorem mcount_setTrackingAll (b : Bool) :
    ∀ m : Module, mcount (setTrackingAll b m) = mcount m
| .mk _ _ _ _ _ cs => by
  simp [setTrackingAll, mcount, lcount_setTrackingList b cs]

theorem lcount_setTrackingList (b : Bool) :
    ∀ cs : List Module, lcount (setTrackingList b cs) = lcount cs
| [] => rfl
| c :: rest => by
  simp [setTrackingList, lcount, mcount_setTrackingAll b c, lcount_setTrackingList b rest]

end

theorem mcount_le_lcount : ∀ {cs : List Module} {c : Module}, c ∈ cs → mcount c ≤ lcount cs
| c :: rest, d, h => by
  rcases List.mem_cons.mp h with h1 | h2
  · subst h1; simp [lcount]
  · have := mcount_le_lcount h2
    simp [lcount]; omega

theorem name_setTrackingAll (b : Bool) (m : Module) :
    (setTrackingAll b m).name = m.name := by cases m; rfl

theorem cfg_setTrackingAll (b : Bool) (m : Module) :
    (setTrackingAll b m).cfg = m.cfg := by cases m; rfl

theorem isInit_setTrackingAll (b : Bool) (m : Module) :
    (setTrackingAll b m).isInit = m.isInit := by cases m; rfl

theorem params_setTrackingAll (b : Bool) (m : Module) :
    (setTrackingAll b m).params = m.params := by cases m; rfl

theorem children_setTrackingAll (b : Bool) (m : Module) :
    (setTrackingAll b m).children = setTrackingList b m.children := by cases m; rfl

theorem nodeAt_setTrackingAll (b : Bool) :
    ∀ (q : List Nat) (m : Module), nodeAt (setTrackingAll b m) q = (nodeAt m q).map (setTrackingAll b)
| [], m => by simp [nodeAt]
| i :: p, m => by
  simp only [nodeAt, children_setTrackingAll, setTrackingList_eq_map, List.get?_map]
  cases h : m.children.get? i with
  | none => simp
  | some c => simp [nodeAt_setTrackingAll b p c]

theorem isInitAt_setTrackingAll (b : Bool) (m : Module) (q : List Nat) :
    isInitAt (setTrackingAll b m) q = isInitAt m q := by
  unfold isInitAt
  rw [nodeAt_setTrackingAll]
  cases nodeAt m q <;> simp [isInit_setTrackingAll]

mutual

theorem allParams_setTrackingAll (b : Bool) :
    ∀ m : Module, allParams (setTrackingAll b m) = allParams m
| .mk _ _ _ _ ps cs => by
  simp [setTrackingAll, allParams, allParamsList_setTrackingList b cs]

theorem allParamsList_setTrackingList (b : Bool) :
    ∀ cs : List Module, allParamsList (setTrackingList b cs) = allParamsList cs
| [] => rfl
| c :: rest => by
  simp [setTrackingList, allParamsList, allParams_setTrackingAll b c,
        allParamsList_setTrackingList b rest]

end

mutual

theorem allInit_setTrackingAll (b : Bool) :
    ∀ m : Module, allInit (setTrackingAll b m) = allInit m
| .mk _ _ _ _ _ cs => by
  simp [setTrackingAll, allInit, allInitList_setTrackingList b cs]

theorem allInitList_setTrackingList (b : Bool) :
    ∀ cs : List Module, allInitList (setTrackingList b cs) = allInitList cs
| [] => rfl
| c :: rest => by
  simp [setTrackingList, allInitList, allInit_setTrackingAll b c,
        allInitList_setTrackingList b rest]

end

mutual

theorem allUninit_setTrackingAll (b : Bool) :
    ∀ m : Module, allUninit (setTrackingAll b m) = allUninit m
| .mk _ _ _ _ _ cs => by
  simp [setTrackingAll, allUninit, allUninitList_setTrackingList b cs]

theorem allUninitList_setTrackingList (b : Bool) :
    ∀ cs : List Module, allUninitList (setTrackingList b cs) = allUninitList cs
| [] => rfl
| c :: rest => by
  simp [setTrackingList, allUninitList, allUninit_setTrackingAll b c,
        allUninitList_setTrackingList b rest]

end

mutual

theorem allTracking_setTrackingAll (b : Bool) :
    ∀ m : Module, allTracking b (setTrackingAll b m) = true
| .mk _ _ _ _ _ cs => by
  simp [setTrackingAll, allTracking, allTrackingList_setTrackingList b cs]

theorem allTrackingList_setTrackingList (b : Bool) :
    ∀ cs : List Module, allTrackingList b (setTrackingList b cs) = true
| [] => rfl
| c :: rest => by
  simp [setTrackingList, allTrackingList, allTracking_setTrackingAll b c,
        allTrackingList_setTrackingList b rest]

end

theorem allUninitList_mem : ∀ {cs : List Module} {c : Module},
    allUninitList cs = true → c ∈ cs → allUninit c = true
| c :: rest, d, h, hm => by
  simp [allUninitList] at h
  rcases List.mem_cons.mp hm with h1 | h2
  · subst h1; exact h.1
  · exact allUninitList_mem h.2 h2

theorem allTrackingList_mem : ∀ {b : Bool} {cs : List Module} {c : Module},
    allTrackingList b cs = true → c ∈ cs → allTracking b c = true
| _, c :: rest, d, h, hm => by
  simp [allTrackingList] at h
  rcases List.mem_cons.mp hm with h1 | h2
  · subst h1; exact h.1
  · exact allTrackingList_mem h.2 h2

theorem allUninit_isInitAt : ∀ (q : List Nat) (m : Module),
    allUninit m = true → isInitAt m q = false
| [], .mk _ _ i _ _ cs => by
  simp [allUninit]
  intro hi _
  simp [isInitAt, nodeAt, Module.isInit, hi]
| j :: p, .mk n c i t ps cs => by
  intro h
  simp [allUninit] at h
  simp only [isInitAt, nodeAt, Module.children]
  cases hg : cs.get? j with
  | none => simp
  | some d =>
    have hd : allUninit d = true := allUninitList_mem h.2 (List.get?_mem hg)
    have := allUninit_isInitAt p d hd
    simpa [isInitAt] using this

mutual

theorem specTrace_setTrackingAll (b : Bool) (p : List Nat) :
    ∀ m : Module, specTrace p (setTrackingAll b m) = specTrace p m
| .mk _ _ _ _ _ cs => by
  simp [setTrackingAll, specTrace, specChildren_setTrackingList b p 0 cs]

theorem specChildren_setTrackingList (b : Bool) (p : List Nat) :
    ∀ (i : Nat) (cs : List Module),
      specChildren p i (setTrackingList b cs) = specChildren p i cs
| _, [] => rfl
| i, c :: rest => by
  simp [setTrackingList, specChildren, specTrace_setTrackingAll b (p ++ [i]) c,
        specChildren_setTrackingList b p (i + 1) rest, isInit_setTrackingAll]

end

theorem finalizeInit_events (g : Global) (m : Module) :
    (finalizeInit g m).1.events = g.events := rfl

theorem finalizeInit_tracking (g : Global) (m : Module) :
    (finalizeInit g m).1.tracking = g.tracking := rfl

theorem finalizeInit_reports (g : Global) (m : Module) :
    (finalizeInit g m).1.reports =
      g.reports ++ [(allParams m).map (fun pr => (pr.pid, lookupInfo g.tracking pr.pid))] := rfl

theorem finalizeInit_module (g : Global) (m : Module) :
    (finalizeInit g m).2 = setTrackingAll false m := rfl

theorem runRules_events : ∀ (rules : List Rule) (p : List Nat) (g : Global) (ps : List Param),
    (runRules p rules g ps).2.2 = false →
    (runRules p rules g ps).1.events = g.events ++ rules.map (Event.applyRule p)
| [], p, g, ps, _ => by simp [runRules]
| r :: rest, p, g, ps, h => by
  cases hf : r.fails with
  | true => simp [runRules, hf] at h
  | false =>
    simp only [runRules, hf, Bool.false_eq_true, if_false] at h ⊢
    rw [runRules_events rest p _ _ h]
    simp

theorem runRules_reports : ∀ (rules : List Rule) (p : List Nat) (g : Global) (ps : List Param),
    (runRules p rules g ps).1.reports = g.reports
| [], _, _, _ => rfl
| r :: rest, p, g, ps => by
  cases hf : r.fails with
  | true => simp [runRules, hf]
  | false =>
    simp only [runRules, hf, Bool.false_eq_true, if_false]
    rw [runRules_reports rest p _ _]

theorem runRules_fail : ∀ (rules : List Rule) (p : List Nat) (g : Global) (ps : List Param),
    (runRules p rules g ps).2.2 = true →
    ∃ r ∈ rules, r.fails = true
| [], p, g, ps, h => by simp [runRules] at h
| r :: rest, p, g, ps, h => by
  cases hf : r.fails with
  | true => exact ⟨r, List.mem_cons_self r rest, hf⟩
  | false =>
    simp only [runRules, hf, Bool.false_eq_true, if_false] at h
    obtain ⟨r', hm, hr'⟩ := runRules_fail rest p _ _ h
    exact ⟨r', List.mem_cons_of_mem r hm, hr'⟩

theorem childLoop_events (f : List Nat → Global → Module → Global × Module × Bool)
    (p : List Nat) :
    ∀ (cs : List Module) (i : Nat) (g : Global),
    (∀ c ∈ cs, ∀ (p' : List Nat) (g' : Global),
        (f p' g' c).2.2 = false → (f p' g' c).1.events = g'.events ++ specTrace p' c) →
    (childLoop f p i g cs).2.2 = false →
    (childLoop f p i g cs).1.events = g.events ++ specChildren p i cs
| [], i, g, _, _ => by simp [childLoop, specChildren]
| c :: rest, i, g, hf, hok => by
  cases hic : c.isInit with
  | true =>
    simp only [childLoop, hic, if_true] at hok ⊢
    rw [childLoop_events f p rest (i + 1) g
          (fun d hd => hf d (List.mem_cons_of_mem c hd)) hok]
    simp [specChildren, hic]
  | false =>
    simp only [childLoop, hic, Bool.false_eq_true, if_false] at hok ⊢
    cases he : (f (p ++ [i]) g c).2.2 with
    | true => simp [he] at hok
    | false =>
      simp only [he, Bool.false_eq_true, if_false] at hok ⊢
      rw [childLoop_events f p rest (i + 1) _
            (fun d hd => hf d (List.mem_cons_of_mem c hd)) hok]
      simp only [Global.events]
      rw [hf c (List.mem_cons_self c rest) (p ++ [i]) g he]
      simp [specChildren, hic]

theorem initWeightsF_events : ∀ (n : Nat) (m : Module) (p : List Nat) (g : Global),
    mcount m ≤ n → (initWeightsF n p g m).2.2 = false →
    (initWeightsF n p g m).1.events = g.events ++ specTrace p m
| 0, m, _, _, hn, _ => absurd (le_trans (mcount_pos m) hn) (by omega)
| Nat.succ n, .mk name cfg inited hasTr ps cs, p, g, hn, hok => by
  have hlc : lcount cs ≤ n := by
    simp [mcount] at hn; omega
  have ih : ∀ c ∈ setTrackingList true cs ++ cs, ∀ (p' : List Nat) (g' : Global),
      (initWeightsF n p' g' c).2.2 = false →
      (initWeightsF n p' g' c).1.events = g'.events ++ specTrace p' c := by
    intro c hc p' g'
    have hb : mcount c ≤ n := by
      rcases List.mem_append.mp hc with h1 | h2
      · have := mcount_le_lcount h1
        rw [lcount_setTrackingList] at this
        omega
      · have := mcount_le_lcount h2
        omega
    exact initWeightsF_events n c p' g' hb
  cases inited with
  | true =>
    cases hasTr with
    | true =>
      simp only [initWeightsF, Bool.not_true, if_true] at hok ⊢
      simp [specTrace]
    | false =>
      simp only [initWeightsF, Bool.not_false, if_true, if_false] at hok ⊢
      simp [finalizeInit, specTrace]
  | false =>
    cases hasTr with
    | true =>
      simp only [initWeightsF, Bool.not_true, Bool.false_eq_true, if_true, if_false] at hok ⊢
      cases h1 : (runRules p (splitRules (cfgRules cfg)).1 g ps).2.2 with
      | true => simp [h1] at hok
      | false =>
        simp only [h1, Bool.false_eq_true, if_false] at hok ⊢
        cases h2 : (childLoop (initWeightsF n) p 0
            (runRules p (splitRules (cfgRules cfg)).1 g ps).1 cs).2.2 with
        | true => simp [h2] at hok
        | false =>
          simp only [h2, Bool.false_eq_true, if_false] at hok ⊢
          cases h3 : (runRules p (splitRules (cfgRules cfg)).2
              (childLoop (initWeightsF n) p 0
                (runRules p (splitRules (cfgRules cfg)).1 g ps).1 cs).1
              (runRules p (splitRules (cfgRules cfg)).1 g ps).2.1).2.2 with
          | true => simp [h3] at hok
          | false =>
            simp only [h3, Bool.false_eq_true, if_false]
            rw [runRules_events _ p _ _ h3,
                childLoop_events (initWeightsF n) p cs 0 _
                  (fun c hc => ih c (List.mem_append.mpr (Or.inr hc))) h2,
                runRules_events _ p _ _ h1]
            simp [specTrace]
    | false =>
      simp only [initWeightsF, Bool.not_false, Bool.false_eq_true, if_true, if_false] at hok ⊢
      cases h1 : (runRules p (splitRules (cfgRules cfg)).1
          { g with tracking := installEntries name ps cs } ps).2.2 with
      | true => simp [h1] at hok
      | false =>
        simp only [h1, Bool.false_eq_true, if_false] at hok ⊢
        cases h2 : (childLoop (initWeightsF n) p 0
            (runRules p (splitRules (cfgRules cfg)).1
              { g with tracking := installEntries name ps cs } ps).1
            (setTrackingList true cs)).2.2 with
        | true => simp [h2] at hok
        | false =>
          simp only [h2, Bool.false_eq_true, if_false] at hok ⊢
          cases h3 : (runRules p (splitRules (cfgRules cfg)).2
              (childLoop (initWeightsF n) p 0
                (runRules p (splitRules (cfgRules cfg)).1
                  { g with tracking := installEntries name ps cs } ps).1
                (setTrackingList true cs)).1
              (runRules p (splitRules (cfgRules cfg)).1
                { g with tracking := installEntries name ps cs } ps).2.1).2.2 with
          | true => simp [h3] at hok
          | false =>
            simp only [h3, Bool.false_eq_true, if_false]
            rw [finalizeInit_events, runRules_events _ p _ _ h3,
                childLoop_events (initWeightsF n) p (setTrackingList true cs) 0 _
                  (fun c hc => ih c (List.mem_append.mpr (Or.inl hc))) h2,
                runRules_events _ p _ _ h1]
            simp [specTrace, specChildren_setTrackingList]

/-- Position-indexed `isInit` lookup in a forest: child index first, then a
path inside that child. -/
def isInitAtL (cs : List Module) (j : Nat) (q : List Nat) : Bool :=
  match cs.get? j with
  | some c => isInitAt c q
  | none => false

theorem isInitAt_cons (n : String) (c : InitCfg) (i t : Bool) (ps : List Param)
    (cs : List Module) (j : Nat) (q : List Nat) :
    isInitAt (.mk n c i t ps cs) (j :: q) = isInitAtL cs j q := by
  simp only [isInitAt, nodeAt, Module.children, isInitAtL]
  cases cs.get? j <;> simp [isInitAt]

theorem isInitAtL_zero (c : Module) (rest : List Module) (q : List Nat) :
    isInitAtL (c :: rest) 0 q = isInitAt c q := rfl

theorem isInitAtL_succ (c : Module) (rest : List Module) (j : Nat) (q : List Nat) :
    isInitAtL (c :: rest) (j + 1) q = isInitAtL rest j q := rfl

theorem isInitAtL_nil (j : Nat) (q : List Nat) : isInitAtL [] j q = false := by
  simp [isInitAtL]

theorem isInitAtL_setTrackingList (b : Bool) (cs : List Module) (j : Nat) (q : List Nat) :
    isInitAtL (setTrackingList b cs) j q = isInitAtL cs j q := by
  simp only [isInitAtL, setTrackingList_eq_map, List.get?_map]
  cases cs.get? j <;> simp [isInitAt_setTrackingAll]

theorem childLoop_isInit_mono (f : List Nat → Global → Module → Global × Module × Bool)
    (p : List Nat) :
    ∀ (cs : List Module) (i : Nat) (g : Global),
    (∀ c ∈ cs, ∀ (p' : List Nat) (g' : Global) (q : List Nat),
        isInitAt c q = true → isInitAt (f p' g' c).2.1 q = true) →
    ∀ (j : Nat) (q : List Nat),
      isInitAtL cs j q = true → isInitAtL (childLoop f p i g cs).2.1 j q = true
| [], i, g, _, j, q, h => by rw [isInitAtL_nil] at h; exact absurd h (by simp)
| c :: rest, i, g, hf, j, q, h => by
  cases hic : c.isInit with
  | true =>
    simp only [childLoop, hic, if_true]
    cases j with
    | zero => simpa [isInitAtL_zero] using h
    | succ j' =>
      rw [isInitAtL_succ] at h ⊢
      exact childLoop_isInit_mono f p rest (i + 1) g
        (fun d hd => hf d (List.mem_cons_of_mem c hd)) j' q h
  | false =>
    simp only [childLoop, hic, Bool.false_eq_true, if_false]
    cases he : (f (p ++ [i]) g c).2.2 with
    | true =>
      simp only [he, if_true]
      cases j with
      | zero =>
        rw [isInitAtL_zero] at h ⊢
        exact hf c (List.mem_cons_self c rest) (p ++ [i]) g q h
      | succ j' => rw [isInitAtL_succ] at h ⊢; exact h
    | false =>
      simp only [he, Bool.false_eq_true, if_false]
      cases j with
      | zero =>
        rw [isInitAtL_zero] at h ⊢
        exact hf c (List.mem_cons_self c rest) (p ++ [i]) g q h
      | succ j' =>
        rw [isInitAtL_succ] at h ⊢
        exact childLoop_isInit_mono f p rest (i + 1) _
          (fun d hd => hf d (List.mem_cons_of_mem c hd)) j' q h

theorem initWeightsF_isInit_mono :
    ∀ (n : Nat) (m : Module) (p : List Nat) (g : Global) (q : List Nat),
    isInitAt m q = true → isInitAt (initWeightsF n p g m).2.1 q = true
| 0, m, p, g, q, h => h
| Nat.succ n, .mk name cfg inited hasTr ps cs, p, g, q, h => by
  have ihcs : ∀ (cs0 : List Module), ∀ c ∈ cs0, ∀ (p' : List Nat) (g' : Global) (q' : List Nat),
      isInitAt c q' = true → isInitAt (initWeightsF n p' g' c).2.1 q' = true :=
    fun _ c _ p' g' q' hq => initWeightsF_isInit_mono n c p' g' q' hq
  cases inited with
  | true =>
    cases hasTr with
    | true =>
      simp only [initWeightsF, Bool.not_true, if_true, Bool.false_eq_true, if_false]
      cases q with
      | nil => simp [isInitAt, nodeAt, Module.isInit]
      | cons j q' =>
        rw [isInitAt_cons] at h ⊢
        exact h
    | false =>
      simp only [initWeightsF, Bool.not_false, Bool.false_eq_true, if_true, if_false,
                 finalizeInit_module]
      rw [isInitAt_setTrackingAll]
      cases q with
      | nil => simp [isInitAt, nodeAt, Module.isInit]
      | cons j q' =>
        rw [isInitAt_cons] at h ⊢
        rwa [isInitAtL_setTrackingList]
  | false =>
    cases q with
    | nil => simp [isInitAt, nodeAt, Module.isInit] at h
    | cons j q' =>
      rw [isInitAt_cons] at h
      cases hasTr with
      | true =>
        simp only [initWeightsF, Bool.not_true, Bool.false_eq_true, if_true, if_false]
        cases h1 : (runRules p (splitRules (cfgRules cfg)).1 g ps).2.2 with
        | true => simp only [h1, if_true]; rw [isInitAt_cons]; exact h
        | false =>
          simp only [h1, Bool.false_eq_true, if_false]
          have hcl := childLoop_isInit_mono (initWeightsF n) p cs 0
            (runRules p (splitRules (cfgRules cfg)).1 g ps).1 (ihcs cs) j q' h
          cases h2 : (childLoop (initWeightsF n) p 0
              (runRules p (splitRules (cfgRules cfg)).1 g ps).1 cs).2.2 with
          | true => simp only [h2, if_true]; rw [isInitAt_cons]; exact hcl
          | false =>
            simp only [h2, Bool.false_eq_true, if_false]
            cases h3 : (runRules p (splitRules (cfgRules cfg)).2
                (childLoop (initWeightsF n) p 0
                  (runRules p (splitRules (cfgRules cfg)).1 g ps).1 cs).1
                (runRules p (splitRules (cfgRules cfg)).1 g ps).2.1).2.2 with
            | true => simp only [h3, if_true]; rw [isInitAt_cons]; exact hcl
            | false =>
              simp only [h3, Bool.false_eq_true, if_false]
              rw [isInitAt_cons]
              exact hcl
      | false =>
        simp only [initWeightsF, Bool.not_false, Bool.false_eq_true, if_true, if_false]
        have h0 : isInitAtL (setTrackingList true cs) j q' = true := by
          rwa [isInitAtL_setTrackingList]
        cases h1 : (runRules p (splitRules (cfgRules cfg)).1
            { g with tracking := installEntries name ps cs } ps).2.2 with
        | true => simp only [h1, if_true]; rw [isInitAt_cons]; exact h0
        | false =>
          simp only [h1, Bool.false_eq_true, if_false]
          have hcl := childLoop_isInit_mono (initWeightsF n) p (setTrackingList true cs) 0
            (runRules p (splitRules (cfgRules cfg)).1
              { g with tracking := installEntries name ps cs } ps).1
            (ihcs (setTrackingList true cs)) j q' h0
          cases h2 : (childLoop (initWeightsF n) p 0
              (runRules p (splitRules (cfgRules cfg)).1
                { g with tracking := installEntries name ps cs } ps).1
              (setTrackingList true cs)).2.2 with
          | true => simp only [h2, if_true]; rw [isInitAt_cons]; exact hcl
          | false =>
            simp only [h2, Bool.false_eq_true, if_false]
            cases h3 : (runRules p (splitRules (cfgRules cfg)).2
                (childLoop (initWeightsF n) p 0
                  (runRules p (splitRules (cfgRules cfg)).1
                    { g with tracking := installEntries name ps cs } ps).1
                  (setTrackingList true cs)).1
                (runRules p (splitRules (cfgRules cfg)).1
                  { g with tracking := installEntries name ps cs } ps).2.1).2.2 with
            | true => simp only [h3, if_true]; rw [isInitAt_cons]; exact hcl
            | false =>
              simp only [h3, Bool.false_eq_true, if_false, finalizeInit_module]
              rw [isInitAt_setTrackingAll, isInitAt_cons]
              exact hcl

theorem childLoop_trackingList (f : List Nat → Global → Module → Global × Module × Bool)
    (p : List Nat) :
    ∀ (cs : List Module) (i : Nat) (g : Global),
    (∀ c ∈ cs, ∀ (p' : List Nat) (g' : Global),
        allTracking true c = true → allTracking true (f p' g' c).2.1 = true) →
    allTrackingList true cs = true →
    allTrackingList true (childLoop f p i g cs).2.1 = true
| [], _, _, _, _ => by simp [childLoop, allTrackingList]
| c :: rest, i, g, hf, h => by
  simp only [allTrackingList, Bool.and_eq_true] at h
  cases hic : c.isInit with
  | true =>
    simp only [childLoop, hic, if_true]
    simp only [allTrackingList, Bool.and_eq_true]
    exact ⟨h.1, childLoop_trackingList f p rest (i + 1) g
      (fun d hd => hf d (List.mem_cons_of_mem c hd)) h.2⟩
  | false =>
    simp only [childLoop, hic, Bool.false_eq_true, if_false]
    have hc := hf c (List.mem_cons_self c rest) (p ++ [i]) g h.1
    cases he : (f (p ++ [i]) g c).2.2 with
    | true =>
      simp only [he, if_true, allTrackingList, Bool.and_eq_true]
      exact ⟨hc, h.2⟩
    | false =>
      simp only [he, Bool.false_eq_true, if_false, allTrackingList, Bool.and_eq_true]
      exact ⟨hc, childLoop_trackingList f p rest (i + 1) _
        (fun d hd => hf d (List.mem_cons_of_mem c hd)) h.2⟩

theorem initWeightsF_tracking_pres :
    ∀ (n : Nat) (m : Module) (p : List Nat) (g : Global),
    allTracking true m = true → allTracking true (initWeightsF n p g m).2.1 = true
| 0, m, p, g, h => h
| Nat.succ n, .mk name cfg inited hasTr ps cs, p, g, h => by
  simp only [allTracking, Bool.and_eq_true, beq_iff_eq] at h
  obtain ⟨ht, hcs⟩ := h
  subst ht
  have ihf : ∀ c ∈ cs, ∀ (p' : List Nat) (g' : Global),
      allTracking true c = true → allTracking true (initWeightsF n p' g' c).2.1 = true :=
    fun c _ p' g' hc => initWeightsF_tracking_pres n c p' g' hc
  cases inited with
  | true =>
    simp only [initWeightsF, Bool.not_true, if_true, Bool.false_eq_true, if_false]
    simp [allTracking, hcs]
  | false =>
    simp only [initWeightsF, Bool.not_true, Bool.false_eq_true, if_true, if_false]
    cases h1 : (runRules p (splitRules (cfgRules cfg)).1 g ps).2.2 with
    | true => simp only [h1, if_true]; simp [allTracking, hcs]
    | false =>
      simp only [h1, Bool.false_eq_true, if_false]
      have hcl := childLoop_trackingList (initWeightsF n) p cs 0
        (runRules p (splitRules (cfgRules cfg)).1 g ps).1 ihf hcs
      cases h2 : (childLoop (initWeightsF n) p 0
          (runRules p (splitRules (cfgRules cfg)).1 g ps).1 cs).2.2 with
      | true => simp only [h2, if_true]; simp [allTracking, hcl]
      | false =>
        simp only [h2, Bool.false_eq_true, if_false]
        cases h3 : (runRules p (splitRules (cfgRules cfg)).2
            (childLoop (initWeightsF n) p 0
              (runRules p (splitRules (cfgRules cfg)).1 g ps).1 cs).1
            (runRules p (splitRules (cfgRules cfg)).1 g ps).2.1).2.2 with
        | true => simp only [h3, if_true]; simp [allTracking, hcl]
        | false =>
          simp only [h3, Bool.false_eq_true, if_false]
          simp [allTracking, hcl]

theorem initWeightsF_top_tracking :
    ∀ (n : Nat) (m : Module) (p : List Nat) (g : Global),
    mcount m ≤ n → m.hasTracking = false →
    (initWeightsF n p g m).2.2 = false →
    allTracking false (initWeightsF n p g m).2.1 = true
| 0, m, _, _, hn, _, _ => absurd (le_trans (mcount_pos m) hn) (by omega)
| Nat.succ n, .mk name cfg inited hasTr ps cs, p, g, _, ht, hok => by
  simp only [Module.hasTracking] at ht
  subst ht
  cases inited with
  | true =>
    simp only [initWeightsF, Bool.not_false, if_true, finalizeInit_module]
    exact allTracking_setTrackingAll false _
  | false =>
    simp only [initWeightsF, Bool.not_false, Bool.false_eq_true, if_true, if_false] at hok ⊢
    cases h1 : (runRules p (splitRules (cfgRules cfg)).1
        { g with tracking := installEntries name ps cs } ps).2.2 with
    | true => simp [h1] at hok
    | false =>
      simp only [h1, Bool.false_eq_true, if_false] at hok ⊢
      cases h2 : (childLoop (initWeightsF n) p 0
          (runRules p (splitRules (cfgRules cfg)).1
            { g with tracking := installEntries name ps cs } ps).1
          (setTrackingList true cs)).2.2 with
      | true => simp [h2] at hok
      | false =>
        simp only [h2, Bool.false_eq_true, if_false] at hok ⊢
        cases h3 : (runRules p (splitRules (cfgRules cfg)).2
            (childLoop (initWeightsF n) p 0
              (runRules p (splitRules (cfgRules cfg)).1
                { g with tracking := installEntries name ps cs } ps).1
              (setTrackingList true cs)).1
            (runRules p (splitRules (cfgRules cfg)).1
              { g with tracking := installEntries name ps cs } ps).2.1).2.2 with
        | true => simp [h3] at hok
        | false =>
          simp only [h3, Bool.false_eq_true, if_false, finalizeInit_module]
          exact allTracking_setTrackingAll false _

theorem initWeightsF_top_fail_tracking :
    ∀ (n : Nat) (m : Module) (p : List Nat) (g : Global),
    mcount m ≤ n → m.hasTracking = false →
    (initWeightsF n p g m).2.2 = true →
    allTracking true (initWeightsF n p g m).2.1 = true
| 0, m, _, _, hn, _, _ => absurd (le_trans (mcount_pos m) hn) (by omega)
| Nat.succ n, .mk name cfg inited hasTr ps cs, p, g, _, ht, herr => by
  simp only [Module.hasTracking] at ht
  subst ht
  have hl : allTrackingList true (setTrackingList true cs) = true :=
    allTrackingList_setTrackingList true cs
  have ihf : ∀ c ∈ setTrackingList true cs, ∀ (p' : List Nat) (g' : Global),
      allTracking true c = true → allTracking true (initWeightsF n p' g' c).2.1 = true :=
    fun c _ p' g' hc => initWeightsF_tracking_pres n c p' g' hc
  cases inited with
  | true =>
    simp only [initWeightsF, Bool.not_false, if_true] at herr
    simp at herr
  | false =>
    simp only [initWeightsF, Bool.not_false, Bool.false_eq_true, if_true, if_false] at herr ⊢
    cases h1 : (runRules p (splitRules (cfgRules cfg)).1
        { g with tracking := installEntries name ps cs } ps).2.2 with
    | true =>
      simp only [h1, if_true]
      simp [allTracking, hl]
    | false =>
      simp only [h1, Bool.false_eq_true, if_false] at herr ⊢
      have hcl := childLoop_trackingList (initWeightsF n) p (setTrackingList true cs) 0
        (runRules p (splitRules (cfgRules cfg)).1
          { g with tracking := installEntries name ps cs } ps).1 ihf hl
      cases h2 : (childLoop (initWeightsF n) p 0
          (runRules p (splitRules (cfgRules cfg)).1
            { g with tracking := installEntries name ps cs } ps).1
          (setTrackingList true cs)).2.2 with
      | true =>
        simp only [h2, if_true]
        simp [allTracking, hcl]
      | false =>
        simp only [h2, Bool.false_eq_true, if_false] at herr ⊢
        cases h3 : (runRules p (splitRules (cfgRules cfg)).2
            (childLoop (initWeightsF n) p 0
              (runRules p (splitRules (cfgRules cfg)).1
                { g with tracking := installEntries name ps cs } ps).1
              (setTrackingList true cs)).1
            (runRules p (splitRules (cfgRules cfg)).1
              { g with tracking := installEntries name ps cs } ps).2.1).2.2 with
        | true =>
          simp only [h3, if_true]
          simp [allTracking, hcl]
        | false =>
          simp [h3, Bool.false_eq_true, if_false] at herr

theorem initWeights_warn_path :
    ∀ (m : Module) (p : List Nat) (g : Global),
    m.hasTracking = false → m.isInit = true →
    (initWeights p g m).2.2 = false ∧
    (initWeights p g m).1.events = g.events ++ [Event.warn (warnMsg m.name)] ∧
    (initWeights p g m).1.reports =
      g.reports ++ [(allParams m).map (fun pr =>
        (pr.pid, lookupInfo (installEntries m.name m.params m.children) pr.pid))] ∧
    allTracking false (initWeights p g m).2.1 = true ∧
    (∀ q : List Nat, isInitAt (initWeights p g m).2.1 q = isInitAt m q) ∧
    (initWeights p g m).2.1 =
      setTrackingAll false (.mk m.name m.cfg m.isInit true m.params (setTrackingList true m.children))
| .mk name cfg inited hasTr ps cs, p, g, ht, hi => by
  simp only [Module.hasTracking] at ht
  simp only [Module.isInit] at hi
  subst ht; subst hi
  simp only [initWeights, mcount, initWeightsF, Bool.not_false, Bool.false_eq_true,
             if_true, if_false, finalizeInit_module, finalizeInit_events,
             finalizeInit_reports, finalizeInit_tracking]
  refine ⟨trivial, rfl, ?_, allTracking_setTrackingAll false _, ?_, ?_⟩
  · simp [allParams, allParamsList_setTrackingList, Module.name, Module.params,
          Module.children, Global.tracking]
  · intro q
    rw [isInitAt_setTrackingAll]
    cases q with
    | nil => simp [isInitAt, nodeAt, Module.isInit]
    | cons j q' => rw [isInitAt_cons, isInitAt_cons, isInitAtL_setTrackingList]
  · rfl

theorem childLoop_allInit (f : List Nat → Global → Module → Global × Module × Bool)
    (p : List Nat) :
    ∀ (cs : List Module) (i : Nat) (g : Global),
    (∀ c ∈ cs, ∀ (p' : List Nat) (g' : Global),
        allUninit c = true → (f p' g' c).2.2 = false → allInit (f p' g' c).2.1 = true) →
    allUninitList cs = true →
    (childLoop f p i g cs).2.2 = false →
    allInitList (childLoop f p i g cs).2.1 = true
| [], _, _, _, _, _ => by simp [childLoop, allInitList]
| c :: rest, i, g, hf, hu, hok => by
  simp only [allUninitList, Bool.and_eq_true] at hu
  have hcflag : c.isInit = false := by
    obtain ⟨n0, c0, i0, t0, ps0, cs0⟩ := c
    have := hu.1
    simp [allUninit] at this
    simpa [Module.isInit] using this.1
  simp only [childLoop, hcflag, Bool.false_eq_true, if_false] at hok ⊢
  cases he : (f (p ++ [i]) g c).2.2 with
  | true => simp [he] at hok
  | false =>
    simp only [he, Bool.false_eq_true, if_false] at hok ⊢
    simp only [allInitList, Bool.and_eq_true]
    exact ⟨hf c (List.mem_cons_self c rest) (p ++ [i]) g hu.1 he,
           childLoop_allInit f p rest (i + 1) _
             (fun d hd => hf d (List.mem_cons_of_mem c hd)) hu.2 hok⟩

theorem initWeightsF_allInit :
    ∀ (n : Nat) (m : Module) (p : List Nat) (g : Global),
    mcount m ≤ n → allUninit m = true →
    (initWeightsF n p g m).2.2 = false →
    allInit (initWeightsF n p g m).2.1 = true
| 0, m, _, _, hn, _, _ => absurd (le_trans (mcount_pos m) hn) (by omega)
| Nat.succ n, .mk name cfg inited hasTr ps cs, p, g, hn, hu, hok => by
  simp only [allUninit, Bool.and_eq_true, Bool.not_eq_true'] at hu
  obtain ⟨hflag, hlist⟩ := hu
  subst hflag
  have hlc : lcount cs ≤ n := by
    simp [mcount] at hn; omega
  have ihf : ∀ (cs0 : List Module), lcount cs0 = lcount cs →
      ∀ c ∈ cs0, ∀ (p' : List Nat) (g' : Global),
      allUninit c = true → (initWeightsF n p' g' c).2.2 = false →
      allInit (initWeightsF n p' g' c).2.1 = true := by
    intro cs0 hc0 c hc p' g' hu0 hok0
    have hb : mcount c ≤ n := by
      have := mcount_le_lcount hc
      omega
    exact initWeightsF_allInit n c p' g' hb hu0 hok0
  cases hasTr with
  | true =>
    simp only [initWeightsF, Bool.not_true, Bool.false_eq_true, if_true, if_false] at hok ⊢
    cases h1 : (runRules p (splitRules (cfgRules cfg)).1 g ps).2.2 with
    | true => simp [h1] at hok
    | false =>
      simp only [h1, Bool.false_eq_true, if_false] at hok ⊢
      cases h2 : (childLoop (initWeightsF n) p 0
          (runRules p (splitRules (cfgRules cfg)).1 g ps).1 cs).2.2 with
      | true => simp [h2] at hok
      | false =>
        simp only [h2, Bool.false_eq_true, if_false] at hok ⊢
        cases h3 : (runRules p (splitRules (cfgRules cfg)).2
            (childLoop (initWeightsF n) p 0
              (runRules p (splitRules (cfgRules cfg)).1 g ps).1 cs).1
            (runRules p (splitRules (cfgRules cfg)).1 g ps).2.1).2.2 with
        | true => simp [h3] at hok
        | false =>
          simp only [h3, Bool.false_eq_true, if_false]
          simp only [allInit, Bool.and_eq_true]
          exact ⟨trivial, childLoop_allInit (initWeightsF n) p cs 0 _
            (ihf cs rfl) hlist h2⟩
  | false =>
    simp only [initWeightsF, Bool.not_false, Bool.false_eq_true, if_true, if_false] at hok ⊢
    have hul : allUninitList (setTrackingList true cs) = true := by
      rwa [allUninitList_setTrackingList]
    cases h1 : (runRules p (splitRules (cfgRules cfg)).1
        { g with tracking := installEntries name ps cs } ps).2.2 with
    | true => simp [h1] at hok
    | false =>
      simp only [h1, Bool.false_eq_true, if_false] at hok ⊢
      cases h2 : (childLoop (initWeightsF n) p 0
          (runRules p (splitRules (cfgRules cfg)).1
            { g with tracking := installEntries name ps cs } ps).1
          (setTrackingList true cs)).2.2 with
      | true => simp [h2] at hok
      | false =>
        simp only [h2, Bool.false_eq_true, if_false] at hok ⊢
        cases h3 : (runRules p (splitRules (cfgRules cfg)).2
            (childLoop (initWeightsF n) p 0
              (runRules p (splitRules (cfgRules cfg)).1
                { g with tracking := installEntries name ps cs } ps).1
              (setTrackingList true cs)).1
            (runRules p (splitRules (cfgRules cfg)).1
              { g with tracking := installEntries name ps cs } ps).2.1).2.2 with
        | true => simp [h3] at hok
        | false =>
          simp only [h3, Bool.false_eq_true, if_false, finalizeInit_module]
          rw [allInit_setTrackingAll]
          simp only [allInit, Bool.and_eq_true]
          exact ⟨trivial, childLoop_allInit (initWeightsF n) p (setTrackingList true cs) 0 _
            (ihf (setTrackingList true cs) (lcount_setTrackingList true cs)) hul h2⟩

/-- Position-indexed node lookup in a forest. -/
def nodeAtL (cs : List Module) (j : Nat) (q : List Nat) : Option Module :=
  match cs.get? j with
  | some c => nodeAt c q
  | none => none

theorem nodeAt_cons (n : String) (c : InitCfg) (i t : Bool) (ps : List Param)
    (cs : List Module) (j : Nat) (q : List Nat) :
    nodeAt (.mk n c i t ps cs) (j :: q) = nodeAtL cs j q := rfl

theorem nodeAtL_zero (c : Module) (rest : List Module) (q : List Nat) :
    nodeAtL (c :: rest) 0 q = nodeAt c q := rfl

theorem nodeAtL_succ (c : Module) (rest : List Module) (j : Nat) (q : List Nat) :
    nodeAtL (c :: rest) (j + 1) q = nodeAtL rest j q := rfl

theorem postLater_nil_left : ∀ q : List Nat, postLater [] q = false
| [] => rfl
| _ :: _ => rfl

theorem postLater_cons_nil (a : Nat) (p : List Nat) : postLater (a :: p) [] = true := rfl

theorem postLater_cons_cons (a b : Nat) (p q : List Nat) :
    postLater (a :: p) (b :: q) = if a = b then postLater p q else decide (a < b) := rfl

theorem splitRules_mem_left : ∀ {rs : List Rule} {r : Rule}, r ∈ (splitRules rs).1 → r ∈ rs
| r0 :: rest, r, h => by
  simp only [splitRules] at h
  cases hp : r0.isPretrained with
  | true =>
    simp only [hp, if_true] at h
    exact List.mem_cons_of_mem r0 (splitRules_mem_left h)
  | false =>
    simp only [hp, Bool.false_eq_true, if_false] at h
    rcases List.mem_cons.mp h with h1 | h2
    · subst h1; exact List.mem_cons_self r rest
    · exact List.mem_cons_of_mem r0 (splitRules_mem_left h2)

theorem splitRules_mem_right : ∀ {rs : List Rule} {r : Rule}, r ∈ (splitRules rs).2 → r ∈ rs
| r0 :: rest, r, h => by
  simp only [splitRules] at h
  cases hp : r0.isPretrained with
  | true =>
    simp only [hp, if_true] at h
    rcases List.mem_cons.mp h with h1 | h2
    · subst h1; exact List.mem_cons_self r rest
    · exact List.mem_cons_of_mem r0 (splitRules_mem_right h2)
  | false =>
    simp only [hp, Bool.false_eq_true, if_false] at h
    exact List.mem_cons_of_mem r0 (splitRules_mem_right h)

theorem childLoop_fail (f : List Nat → Global → Module → Global × Module × Bool)
    (p : List Nat) :
    ∀ (cs : List Module) (i : Nat) (g : Global),
    (∀ c ∈ cs, ∀ (p' : List Nat) (g' : Global),
        allUninit c = true → (f p' g' c).2.2 = true →
        ∃ pf, (∃ nf, nodeAt (f p' g' c).2.1 pf = some nf ∧
            (cfgRules nf.cfg).any (fun r => r.fails) = true) ∧
          ∀ q, postLater pf q = true → isInitAt (f p' g' c).2.1 q = false) →
    allUninitList cs = true →
    (childLoop f p i g cs).2.2 = true →
    ∃ j pf c', (childLoop f p i g cs).2.1.get? j = some c' ∧
      (∃ nf, nodeAt c' pf = some nf ∧ (cfgRules nf.cfg).any (fun r => r.fails) = true) ∧
      (∀ q, postLater pf q = true → isInitAt c' q = false) ∧
      (∀ k, j < k → ∀ ck, (childLoop f p i g cs).2.1.get? k = some ck → allUninit ck = true)
| [], _, _, _, _, herr => by simp [childLoop] at herr
| c :: rest, i, g, hf, hu, herr => by
  simp only [allUninitList, Bool.and_eq_true] at hu
  have hcflag : c.isInit = false := by
    obtain ⟨n0, c0, i0, t0, ps0, cs0⟩ := c
    have := hu.1
    simp [allUninit] at this
    simpa [Module.isInit] using this.1
  simp only [childLoop, hcflag, Bool.false_eq_true, if_false] at herr ⊢
  cases he : (f (p ++ [i]) g c).2.2 with
  | true =>
    simp only [he, if_true]
    obtain ⟨pf, hfind, hafter⟩ :=
      hf c (List.mem_cons_self c rest) (p ++ [i]) g hu.1 he
    refine ⟨0, pf, (f (p ++ [i]) g c).2.1, rfl, hfind, hafter, ?_⟩
    intro k hk ck hck
    cases k with
    | zero => omega
    | succ k' =>
      simp only [List.get?_cons_succ] at hck
      exact allUninitList_mem hu.2 (List.get?_mem hck)
  | false =>
    simp only [he, Bool.false_eq_true, if_false] at herr ⊢
    obtain ⟨j, pf, c', hget, hfind, hafter, hrest⟩ :=
      childLoop_fail f p rest (i + 1) _
        (fun d hd => hf d (List.mem_cons_of_mem c hd)) hu.2 herr
    refine ⟨j + 1, pf, c', by simpa using hget, hfind, hafter, ?_⟩
    intro k hk ck hck
    cases k with
    | zero => omega
    | succ k' =>
      simp only [List.get?_cons_succ] at hck
      exact hrest k' (by omega) ck hck

theorem initWeightsF_fail_after :
    ∀ (n : Nat) (m : Module) (p : List Nat) (g : Global),
    mcount m ≤ n → allUninit m = true →
    (initWeightsF n p g m).2.2 = true →
    ∃ pf, (∃ nf, nodeAt (initWeightsF n p g m).2.1 pf = some nf ∧
        (cfgRules nf.cfg).any (fun r => r.fails) = true) ∧
      ∀ q, postLater pf q = true → isInitAt (initWeightsF n p g m).2.1 q = false
| 0, m, _, _, hn, _, _ => absurd (le_trans (mcount_pos m) hn) (by omega)
| Nat.succ n, .mk name cfg inited hasTr ps cs, p, g, hn, hu, herr => by
  simp only [allUninit, Bool.and_eq_true, Bool.not_eq_true'] at hu
  obtain ⟨hflag, hlist⟩ := hu
  subst hflag
  have hlc : lcount cs ≤ n := by
    simp [mcount] at hn; omega
  have ihf : ∀ (cs0 : List Module), lcount cs0 = lcount cs →
      ∀ c ∈ cs0, ∀ (p' : List Nat) (g' : Global),
      allUninit c = true → (initWeightsF n p' g' c).2.2 = true →
      ∃ pf, (∃ nf, nodeAt (initWeightsF n p' g' c).2.1 pf = some nf ∧
          (cfgRules nf.cfg).any (fun r => r.fails) = true) ∧
        ∀ q, postLater pf q = true → isInitAt (initWeightsF n p' g' c).2.1 q = false := by
    intro cs0 hc0 c hc p' g' hu0 herr0
    have hb : mcount c ≤ n := by
      have := mcount_le_lcount hc
      omega
    exact initWeightsF_fail_after n c p' g' hb hu0 herr0
  cases hasTr with
  | true =>
    simp only [initWeightsF, Bool.not_true, Bool.false_eq_true, if_true, if_false] at herr ⊢
    cases h1 : (runRules p (splitRules (cfgRules cfg)).1 g ps).2.2 with
    | true =>
      simp only [h1, if_true]
      obtain ⟨r, hm, hrf⟩ := runRules_fail _ p g ps h1
      refine ⟨[], ⟨.mk name cfg false true (runRules p (splitRules (cfgRules cfg)).1 g ps).2.1 cs,
        rfl, List.any_eq_true.mpr ⟨r, splitRules_mem_left hm, hrf⟩⟩, ?_⟩
      intro q hq
      rw [postLater_nil_left] at hq
      exact absurd hq (by simp)
    | false =>
      simp only [h1, Bool.false_eq_true, if_false] at herr ⊢
      cases h2 : (childLoop (initWeightsF n) p 0
          (runRules p (splitRules (cfgRules cfg)).1 g ps).1 cs).2.2 with
      | true =>
        simp only [h2, if_true]
        obtain ⟨j, pf, c', hget, hfind, hafter, hrest⟩ :=
          childLoop_fail (initWeightsF n) p cs 0 _ (ihf cs rfl) hlist h2
        obtain ⟨nf, hnf, hnfF⟩ := hfind
        refine ⟨j :: pf, ⟨nf, ?_, hnfF⟩, ?_⟩
        · rw [nodeAt_cons]
          simp only [nodeAtL, Module.children, hget]
          exact hnf
        · intro q hq
          cases q with
          | nil => simp [isInitAt, nodeAt, Module.isInit]
          | cons k q' =>
            rw [postLater_cons_cons] at hq
            rw [isInitAt_cons]
            by_cases hjk : j = k
            · subst hjk
              simp only [if_true, if_pos rfl] at hq
              simp only [isInitAtL, Module.children, hget]
              exact hafter q' hq
            · rw [if_neg hjk] at hq
              have hlt : j < k := by simpa using hq
              simp only [isInitAtL, Module.children]
              cases hck : (childLoop (initWeightsF n) p 0
                  (runRules p (splitRules (cfgRules cfg)).1 g ps).1 cs).2.1.get? k with
              | none => rfl
              | some ck =>
                exact allUninit_isInitAt q' ck (hrest k hlt ck hck)
      | false =>
        simp only [h2, Bool.false_eq_true, if_false] at herr ⊢
        cases h3 : (runRules p (splitRules (cfgRules cfg)).2
            (childLoop (initWeightsF n) p 0
              (runRules p (splitRules (cfgRules cfg)).1 g ps).1 cs).1
            (runRules p (splitRules (cfgRules cfg)).1 g ps).2.1).2.2 with
        | true =>
          simp only [h3, if_true]
          obtain ⟨r, hm, hrf⟩ := runRules_fail _ p _ _ h3
          refine ⟨[], ⟨_, rfl, List.any_eq_true.mpr ⟨r, splitRules_mem_right hm, hrf⟩⟩, ?_⟩
          intro q hq
          rw [postLater_nil_left] at hq
          exact absurd hq (by simp)
        | false => simp [h3] at herr
  | false =>
    simp only [initWeightsF, Bool.not_false, Bool.false_eq_true, if_true, if_false] at herr ⊢
    have hul : allUninitList (setTrackingList true cs) = true := by
      rwa [allUninitList_setTrackingList]
    cases h1 : (runRules p (splitRules (cfgRules cfg)).1
        { g with tracking := installEntries name ps cs } ps).2.2 with
    | true =>
      simp only [h1, if_true]
      obtain ⟨r, hm, hrf⟩ := runRules_fail _ p _ ps h1
      refine ⟨[], ⟨_, rfl, List.any_eq_true.mpr ⟨r, splitRules_mem_left hm, hrf⟩⟩, ?_⟩
      intro q hq
      rw [postLater_nil_left] at hq
      exact absurd hq (by simp)
    | false =>
      simp only [h1, Bool.false_eq_true, if_false] at herr ⊢
      cases h2 : (childLoop (initWeightsF n) p 0
          (runRules p (splitRules (cfgRules cfg)).1
            { g with tracking := installEntries name ps cs } ps).1
          (setTrackingList true cs)).2.2 with
      | true =>
        simp only [h2, if_true]
        obtain ⟨j, pf, c', hget, hfind, hafter, hrest⟩ :=
          childLoop_fail (initWeightsF n) p (setTrackingList true cs) 0 _
            (ihf (setTrackingList true cs) (lcount_setTrackingList true cs)) hul h2
        obtain ⟨nf, hnf, hnfF⟩ := hfind
        refine ⟨j :: pf, ⟨nf, ?_, hnfF⟩, ?_⟩
        · rw [nodeAt_cons]
          simp only [nodeAtL, Module.children, hget]
          exact hnf
        · intro q hq
          cases q with
          | nil => simp [isInitAt, nodeAt, Module.isInit]
          | cons k q' =>
            rw [postLater_cons_cons] at hq
            rw [isInitAt_cons]
            by_cases hjk : j = k
            · subst hjk
              simp only [if_true, if_pos rfl] at hq
              simp only [isInitAtL, Module.children, hget]
              exact hafter q' hq
            · rw [if_neg hjk] at hq
              have hlt : j < k := by simpa using hq
              simp only [isInitAtL, Module.children]
              cases hck : (childLoop (initWeightsF n) p 0
                  (runRules p (splitRules (cfgRules cfg)).1
                    { g with tracking := installEntries name ps cs } ps).1
                  (setTrackingList true cs)).2.1.get? k with
              | none => rfl
              | some ck =>
                exact allUninit_isInitAt q' ck (hrest k hlt ck hck)
      | false =>
        simp only [h2, Bool.false_eq_true, if_false] at herr ⊢
        cases h3 : (runRules p (splitRules (cfgRules cfg)).2
            (childLoop (initWeightsF n) p 0
              (runRules p (splitRules (cfgRules cfg)).1
                { g with tracking := installEntries name ps cs } ps).1
              (setTrackingList true cs)).1
            (runRules p (splitRules (cfgRules cfg)).1
              { g with tracking := installEntries name ps cs } ps).2.1).2.2 with
        | true =>
          simp only [h3, if_true]
          obtain ⟨r, hm, hrf⟩ := runRules_fail _ p _ _ h3
          refine ⟨[], ⟨_, rfl, List.any_eq_true.mpr ⟨r, splitRules_mem_right hm, hrf⟩⟩, ?_⟩
          intro q hq
          rw [postLater_nil_left] at hq
          exact absurd hq (by simp)
        | false => simp [h3] at herr

/-- The `(parameter identity, snapshot mean)` content of a tracking map,
forgetting the descriptions. -/
def meansOf (tm : TrackMap) : List (Nat × Nat) :=
  tm.map (fun e => (e.1, e.2.tmpMean))

theorem meansOf_updateInfo (tm : TrackMap) (pids : List Nat) (info : String) :
    meansOf (updateInfo tm pids info) = meansOf tm := by
  induction tm with
  | nil => rfl
  | cons e rest ih =>
    simp only [updateInfo, List.map_cons, meansOf] at ih ⊢
    by_cases h : pids.contains e.1 = true
    · rw [if_pos h, ih]
    · rw [if_neg h, ih]

theorem meansOf_mapStep (tm : TrackMap) (pr : Param) (info : String) :
    meansOf (tm.map (fun e =>
      if e.1 = pr.pid ∧ e.2.tmpMean ≠ pr.value then (e.1, { initInfo := info, tmpMean := e.2.tmpMean }) else e)) =
    meansOf tm := by
  induction tm with
  | nil => rfl
  | cons e rest ih =>
    simp only [List.map_cons, meansOf] at ih ⊢
    by_cases h : e.1 = pr.pid ∧ e.2.tmpMean ≠ pr.value
    · rw [if_pos h, ih]
    · rw [if_neg h, ih]

theorem meansOf_updateInitInfo (tm : TrackMap) (target : Module) (info : String) :
    meansOf (updateInitInfo tm target info) = meansOf tm := by
  unfold updateInitInfo
  generalize allParams target = l
  induction l generalizing tm with
  | nil => rfl
  | cons pr rest ih =>
    simp only [List.foldl_cons]
    rw [ih, meansOf_mapStep]

theorem meansOf_runRules : ∀ (rules : List Rule) (p : List Nat) (g : Global) (ps : List Param),
    meansOf (runRules p rules g ps).1.tracking = meansOf g.tracking
| [], _, _, _ => rfl
| r :: rest, p, g, ps => by
  cases hf : r.fails with
  | true => simp [runRules, hf]
  | false =>
    simp only [runRules, hf, Bool.false_eq_true, if_false]
    rw [meansOf_runRules rest p _ _]
    exact meansOf_updateInfo _ _ _

theorem childLoop_means (f : List Nat → Global → Module → Global × Module × Bool)
    (p : List Nat) :
    ∀ (cs : List Module) (i : Nat) (g : Global),
    (∀ c ∈ cs, ∀ (p' : List Nat) (g' : Global),
        allTracking true c = true → meansOf (f p' g' c).1.tracking = meansOf g'.tracking) →
    allTrackingList true cs = true →
    meansOf (childLoop f p i g cs).1.tracking = meansOf g.tracking
| [], _, _, _, _ => rfl
| c :: rest, i, g, hf, ht => by
  simp only [allTrackingList, Bool.and_eq_true] at ht
  cases hic : c.isInit with
  | true =>
    simp only [childLoop, hic, if_true]
    exact childLoop_means f p rest (i + 1) g
      (fun d hd => hf d (List.mem_cons_of_mem c hd)) ht.2
  | false =>
    simp only [childLoop, hic, Bool.false_eq_true, if_false]
    have hc := hf c (List.mem_cons_self c rest) (p ++ [i]) g ht.1
    cases he : (f (p ++ [i]) g c).2.2 with
    | true => simp only [he, if_true]; exact hc
    | false =>
      simp only [he, Bool.false_eq_true, if_false]
      rw [childLoop_means f p rest (i + 1) _
            (fun d hd => hf d (List.mem_cons_of_mem c hd)) ht.2]
      simp only [Global.tracking]
      rw [meansOf_updateInitInfo]
      exact hc

theorem initWeightsF_means_nested :
    ∀ (n : Nat) (m : Module) (p : List Nat) (g : Global),
    allTracking true m = true →
    meansOf (initWeightsF n p g m).1.tracking = meansOf g.tracking
| 0, _, _, _, _ => rfl
| Nat.succ n, .mk name cfg inited hasTr ps cs, p, g, h => by
  simp only [allTracking, Bool.and_eq_true, beq_iff_eq] at h
  obtain ⟨ht, hcs⟩ := h
  subst ht
  have ihf : ∀ c ∈ cs, ∀ (p' : List Nat) (g' : Global),
      allTracking true c = true → meansOf (initWeightsF n p' g' c).1.tracking = meansOf g'.tracking :=
    fun c _ p' g' hc => initWeightsF_means_nested n c p' g' hc
  cases inited with
  | true =>
    simp only [initWeightsF, Bool.not_true, if_true, Bool.false_eq_true, if_false]
  | false =>
    simp only [initWeightsF, Bool.not_true, Bool.false_eq_true, if_true, if_false]
    cases h1 : (runRules p (splitRules (cfgRules cfg)).1 g ps).2.2 with
    | true => simp only [h1, if_true]; exact meansOf_runRules _ p g ps
    | false =>
      simp only [h1, Bool.false_eq_true, if_false]
      have hcl := childLoop_means (initWeightsF n) p cs 0
        (runRules p (splitRules (cfgRules cfg)).1 g ps).1 ihf hcs
      have hr1 := meansOf_runRules (splitRules (cfgRules cfg)).1 p g ps
      cases h2 : (childLoop (initWeightsF n) p 0
          (runRules p (splitRules (cfgRules cfg)).1 g ps).1 cs).2.2 with
      | true => simp only [h2, if_true]; rw [hcl, hr1]
      | false =>
        simp only [h2, Bool.false_eq_true, if_false]
        have hr2 := meansOf_runRules (splitRules (cfgRules cfg)).2 p
          (childLoop (initWeightsF n) p 0
            (runRules p (splitRules (cfgRules cfg)).1 g ps).1 cs).1
          (runRules p (splitRules (cfgRules cfg)).1 g ps).2.1
        cases h3 : (runRules p (splitRules (cfgRules cfg)).2
            (childLoop (initWeightsF n) p 0
              (runRules p (splitRules (cfgRules cfg)).1 g ps).1 cs).1
            (runRules p (splitRules (cfgRules cfg)).1 g ps).2.1).2.2 with
        | true => simp only [h3, if_true]; rw [hr2, hcl, hr1]
        | false =>
          simp only [h3, Bool.false_eq_true, if_false]
          rw [hr2, hcl, hr1]

theorem initWeightsF_means_top :
    ∀ (n : Nat) (m : Module) (p : List Nat) (g : Global),
    mcount m ≤ n → m.hasTracking = false →
    meansOf (initWeightsF n p g m).1.tracking =
      meansOf (installEntries m.name m.params m.children)
| 0, m, _, _, hn, _ => absurd (le_trans (mcount_pos m) hn) (by omega)
| Nat.succ n, .mk name cfg inited hasTr ps cs, p, g, hn, ht => by
  simp only [Module.hasTracking] at ht
  subst ht
  simp only [Module.name, Module.params, Module.children]
  have hul : allTrackingList true (setTrackingList true cs) = true :=
    allTrackingList_setTrackingList true cs
  have ihf : ∀ c ∈ setTrackingList true cs, ∀ (p' : List Nat) (g' : Global),
      allTracking true c = true → meansOf (initWeightsF n p' g' c).1.tracking = meansOf g'.tracking :=
    fun c _ p' g' hc => initWeightsF_means_nested n c p' g' hc
  cases inited with
  | true =>
    simp only [initWeightsF, Bool.not_false, if_true, finalizeInit_tracking]
    rfl
  | false =>
    simp only [initWeightsF, Bool.not_false, Bool.false_eq_true, if_true, if_false]
    have hr1 := meansOf_runRules (splitRules (cfgRules cfg)).1 p
      { g with tracking := installEntries name ps cs } ps
    simp only [Global.tracking] at hr1
    cases h1 : (runRules p (splitRules (cfgRules cfg)).1
        { g with tracking := installEntries name ps cs } ps).2.2 with
    | true => simp only [h1, if_true]; exact hr1
    | false =>
      simp only [h1, Bool.false_eq_true, if_false]
      have hcl := childLoop_means (initWeightsF n) p (setTrackingList true cs) 0
        (runRules p (splitRules (cfgRules cfg)).1
          { g with tracking := installEntries name ps cs } ps).1 ihf hul
      cases h2 : (childLoop (initWeightsF n) p 0
          (runRules p (splitRules (cfgRules cfg)).1
            { g with tracking := installEntries name ps cs } ps).1
          (setTrackingList true cs)).2.2 with
      | true => simp only [h2, if_true]; rw [hcl, hr1]
      | false =>
        simp only [h2, Bool.false_eq_true, if_false]
        have hr2 := meansOf_runRules (splitRules (cfgRules cfg)).2 p
          (childLoop (initWeightsF n) p 0
            (runRules p (splitRules (cfgRules cfg)).1
              { g with tracking := installEntries name ps cs } ps).1
            (setTrackingList true cs)).1
          (runRules p (splitRules (cfgRules cfg)).1
            { g with tracking := installEntries name ps cs } ps).2.1
        cases h3 : (runRules p (splitRules (cfgRules cfg)).2
            (childLoop (initWeightsF n) p 0
              (runRules p (splitRules (cfgRules cfg)).1
                { g with tracking := installEntries name ps cs } ps).1
              (setTrackingList true cs)).1
            (runRules p (splitRules (cfgRules cfg)).1
              { g with tracking := installEntries name ps cs } ps).2.1).2.2 with
        | true => simp only [h3, if_true]; rw [hr2, hcl, hr1]
        | false =>
          simp only [h3, Bool.false_eq_true, if_false, finalizeInit_tracking]
          rw [hr2, hcl, hr1]

theorem meansOf_installEntries (nm : String) (ps : List Param) (cs : List Module) :
    meansOf (installEntries nm ps cs) =
      (ps ++ allParamsList cs).map (fun pr => (pr.pid, pr.value)) := by
  simp only [meansOf, installEntries, List.map_map, List.map_append]
  rfl

theorem map_step_id (tm : TrackMap) (pr : Param) (info : String)
    (h : ∀ e ∈ tm, e.1 = pr.pid → e.2.tmpMean = pr.value) :
    tm.map (fun e =>
      if e.1 = pr.pid ∧ e.2.tmpMean ≠ pr.value then (e.1, { initInfo := info, tmpMean := e.2.tmpMean }) else e) = tm := by
  have hcong : ∀ e ∈ tm,
      (if e.1 = pr.pid ∧ e.2.tmpMean ≠ pr.value then (e.1, { initInfo := info, tmpMean := e.2.tmpMean }) else e) = id e := by
    intro e he
    rw [if_neg]
    · rfl
    · rintro ⟨h1, h2⟩
      exact h2 (h e he h1)
  rw [List.map_congr_left hcong, List.map_id]

theorem foldl_update_id : ∀ (l : List Param) (tm : TrackMap) (info : String),
    (∀ pr ∈ l, ∀ e ∈ tm, e.1 = pr.pid → e.2.tmpMean = pr.value) →
    l.foldl (fun acc pr => acc.map (fun e =>
      if e.1 = pr.pid ∧ e.2.tmpMean ≠ pr.value then (e.1, { initInfo := info, tmpMean := e.2.tmpMean }) else e)) tm = tm
| [], _, _, _ => rfl
| pr :: rest, tm, info, h => by
  simp only [List.foldl_cons]
  rw [map_step_id tm pr info (fun e he h1 => h pr (List.mem_cons_self _ _) e he h1)]
  exact foldl_update_id rest tm info (fun pr' hpr' => h pr' (List.mem_cons_of_mem _ hpr'))

theorem updateInitInfo_id (tm : TrackMap) (target : Module) (info : String)
    (h : ∀ pr ∈ allParams target, ∀ e ∈ tm, e.1 = pr.pid → e.2.tmpMean = pr.value) :
    updateInitInfo tm target info = tm := by
  unfold updateInitInfo
  exact foldl_update_id (allParams target) tm info h

theorem childLoop_id (f : List Nat → Global → Module → Global × Module × Bool)
    (p : List Nat) :
    ∀ (cs : List Module) (i : Nat) (g : Global),
    (∀ c ∈ cs, ∀ (p' : List Nat) (g' : Global),
        allTracking true c = true → noRulesAll c = true → allUninit c = true →
        (∀ pr ∈ allParams c, ∀ e ∈ g'.tracking, e.1 = pr.pid → e.2.tmpMean = pr.value) →
        (f p' g' c).1 = g' ∧ (f p' g' c).2.2 = false ∧
        allParams (f p' g' c).2.1 = allParams c) →
    allTrackingList true cs = true → noRulesList cs = true → allUninitList cs = true →
    (∀ pr ∈ allParamsList cs, ∀ e ∈ g.tracking, e.1 = pr.pid → e.2.tmpMean = pr.value) →
    (childLoop f p i g cs).1 = g ∧ (childLoop f p i g cs).2.2 = false ∧
    allParamsList (childLoop f p i g cs).2.1 = allParamsList cs
| [], _, _, _, _, _, _, _ => ⟨rfl, rfl, rfl⟩
| c :: rest, i, g, hf, ht, hnr, hu, hmm => by
  simp only [allTrackingList, Bool.and_eq_true] at ht
  simp only [noRulesList, Bool.and_eq_true] at hnr
  simp only [allUninitList, Bool.and_eq_true] at hu
  have hcflag : c.isInit = false := by
    obtain ⟨n0, c0, i0, t0, ps0, cs0⟩ := c
    have := hu.1
    simp [allUninit] at this
    simpa [Module.isInit] using this.1
  have hmmc : ∀ pr ∈ allParams c, ∀ e ∈ g.tracking, e.1 = pr.pid → e.2.tmpMean = pr.value :=
    fun pr hpr => hmm pr (by simp [allParamsList, hpr])
  have hmmr : ∀ pr ∈ allParamsList rest, ∀ e ∈ g.tracking, e.1 = pr.pid → e.2.tmpMean = pr.value :=
    fun pr hpr => hmm pr (by simp [allParamsList, hpr])
  obtain ⟨hg0, he0, hp0⟩ := hf c (List.mem_cons_self c rest) (p ++ [i]) g ht.1 hnr.1 hu.1 hmmc
  simp only [childLoop, hcflag, Bool.false_eq_true, if_false, he0, if_false]
  have hupd : updateInitInfo (f (p ++ [i]) g c).1.tracking (f (p ++ [i]) g c).2.1
      (childInfo (f (p ++ [i]) g c).2.1.name) = (f (p ++ [i]) g c).1.tracking := by
    apply updateInitInfo_id
    rw [hp0, hg0]
    exact hmmc
  have hg2 : { (f (p ++ [i]) g c).1 with
      tracking := updateInitInfo (f (p ++ [i]) g c).1.tracking (f (p ++ [i]) g c).2.1
        (childInfo (f (p ++ [i]) g c).2.1.name) } = g := by
    rw [hupd, hg0]
  rw [hg2]
  obtain ⟨hg1, he1, hp1⟩ :=
    childLoop_id f p rest (i + 1) g
      (fun d hd => hf d (List.mem_cons_of_mem c hd)) ht.2 hnr.2 hu.2 hmmr
  refine ⟨hg1, he1, ?_⟩
  simp only [allParamsList, hp0, hp1]

theorem initWeightsF_id :
    ∀ (n : Nat) (m : Module) (p : List Nat) (g : Global),
    mcount m ≤ n → allTracking true m = true → noRulesAll m = true → allUninit m = true →
    (∀ pr ∈ allParams m, ∀ e ∈ g.tracking, e.1 = pr.pid → e.2.tmpMean = pr.value) →
    (initWeightsF n p g m).1 = g ∧ (initWeightsF n p g m).2.2 = false ∧
    allParams (initWeightsF n p g m).2.1 = allParams m
| 0, m, _, _, hn, _, _, _, _ => absurd (le_trans (mcount_pos m) hn) (by omega)
| Nat.succ n, .mk name cfg inited hasTr ps cs, p, g, hn, ht, hnr, hu, hmm => by
  simp only [allTracking, Bool.and_eq_true, beq_iff_eq] at ht
  obtain ⟨htr, htl⟩ := ht
  subst htr
  simp only [noRulesAll, Bool.and_eq_true, List.isEmpty_iff] at hnr
  obtain ⟨hcr, hnl⟩ := hnr
  simp only [allUninit, Bool.and_eq_true, Bool.not_eq_true'] at hu
  obtain ⟨hflag, hul⟩ := hu
  subst hflag
  have hlc : lcount cs ≤ n := by
    simp [mcount] at hn; omega
  have hmml : ∀ pr ∈ allParamsList cs, ∀ e ∈ g.tracking, e.1 = pr.pid → e.2.tmpMean = pr.value :=
    fun pr hpr => hmm pr (by simp [allParams, hpr])
  have hf0 : ∀ c ∈ cs, ∀ (p' : List Nat) (g' : Global),
      allTracking true c = true → noRulesAll c = true → allUninit c = true →
      (∀ pr ∈ allParams c, ∀ e ∈ g'.tracking, e.1 = pr.pid → e.2.tmpMean = pr.value) →
      (initWeightsF n p' g' c).1 = g' ∧ (initWeightsF n p' g' c).2.2 = false ∧
      allParams (initWeightsF n p' g' c).2.1 = allParams c := by
    intro c hc p' g' h1 h2 h3 h4
    have hb : mcount c ≤ n := by
      have := mcount_le_lcount hc
      omega
    exact initWeightsF_id n c p' g' hb h1 h2 h3 h4
  obtain ⟨hg1, he1, hp1⟩ := childLoop_id (initWeightsF n) p cs 0 g hf0 htl hnl hul hmml
  simp only [initWeightsF, Bool.not_true, Bool.false_eq_true, if_true, if_false,
             hcr, splitRules, runRules]
  simp only [he1, Bool.false_eq_true, if_false]
  refine ⟨hg1, trivial, ?_⟩
  simp only [allParams, hp1]

theorem lookupInfo_mapInstall :
    ∀ (l : List Param) (nm : String) (pid : Nat),
    l.any (fun pr => pr.pid == pid) = true →
    lookupInfo (l.map (fun pr => (pr.pid, { initInfo := defaultInfo nm, tmpMean := pr.value }))) pid =
      defaultInfo nm
| pr :: rest, nm, pid, h => by
  simp only [lookupInfo, List.map_cons, List.find?]
  cases hp : (pr.pid == pid) with
  | true => simp [hp]
  | false =>
    simp only [List.any_cons, Bool.or_eq_true] at h
    rcases h with h1 | h2
    · rw [hp] at h1; exact absurd h1 (by simp)
    · have := lookupInfo_mapInstall rest nm pid h2
      simpa [lookupInfo, hp] using this

mutual

theorem noRulesAll_setTrackingAll (b : Bool) :
    ∀ m : Module, noRulesAll (setTrackingAll b m) = noRulesAll m
| .mk _ _ _ _ _ cs => by
  simp [setTrackingAll, noRulesAll, noRulesList_setTrackingList b cs]

theorem noRulesList_setTrackingList (b : Bool) :
    ∀ cs : List Module, noRulesList (setTrackingList b cs) = noRulesList cs
| [] => rfl
| c :: rest => by
  simp [setTrackingList, noRulesList, noRulesAll_setTrackingAll b c,
        noRulesList_setTrackingList b rest]

end

theorem initWeights_noRules_report :
    ∀ (m : Module), m.hasTracking = false → noRulesAll m = true → allUninit m = true →
    ((allParams m).map Param.pid).Nodup →
    (initWeights [] emptyGlobal m).2.2 = false ∧
    (initWeights [] emptyGlobal m).1.reports =
      [(allParams m).map (fun pr => (pr.pid, defaultInfo m.name))]
| .mk name cfg inited hasTr ps cs, ht, hnr, hu, hnd => by
  simp only [Module.hasTracking] at ht
  subst ht
  simp only [noRulesAll, Bool.and_eq_true, List.isEmpty_iff] at hnr
  obtain ⟨hcr, hnl⟩ := hnr
  simp only [allUninit, Bool.and_eq_true, Bool.not_eq_true'] at hu
  obtain ⟨hflag, hul⟩ := hu
  subst hflag
  simp only [allParams, Module.name] at hnd ⊢
  have hinj := List.inj_on_of_nodup_map hnd
  have hinstmm : ∀ pr ∈ allParamsList (setTrackingList true cs),
      ∀ e ∈ (installEntries name ps cs : TrackMap), e.1 = pr.pid → e.2.tmpMean = pr.value := by
    intro pr hpr e he hpid
    rw [allParamsList_setTrackingList] at hpr
    simp only [installEntries, List.mem_map] at he
    obtain ⟨pr', hpr', hee⟩ := he
    subst hee
    simp only at hpid
    have : pr' = pr := hinj hpr' (List.mem_append.mpr (Or.inr hpr)) hpid
    rw [this]
  have hf0 : ∀ c ∈ setTrackingList true cs, ∀ (p' : List Nat) (g' : Global),
      allTracking true c = true → noRulesAll c = true → allUninit c = true →
      (∀ pr ∈ allParams c, ∀ e ∈ g'.tracking, e.1 = pr.pid → e.2.tmpMean = pr.value) →
      (initWeightsF (lcount cs) p' g' c).1 = g' ∧ (initWeightsF (lcount cs) p' g' c).2.2 = false ∧
      allParams (initWeightsF (lcount cs) p' g' c).2.1 = allParams c := by
    intro c hc p' g' h1 h2 h3 h4
    have hb : mcount c ≤ lcount cs := by
      have h5 := mcount_le_lcount hc
      rw [lcount_setTrackingList] at h5
      exact h5
    exact initWeightsF_id (lcount cs) c p' g' hb h1 h2 h3 h4
  have hnls : noRulesList (setTrackingList true cs) = true := by
    rwa [noRulesList_setTrackingList]
  have huls : allUninitList (setTrackingList true cs) = true := by
    rwa [allUninitList_setTrackingList]
  obtain ⟨hg1, he1, hp1⟩ := childLoop_id (initWeightsF (lcount cs)) [] (setTrackingList true cs) 0
    { emptyGlobal with tracking := installEntries name ps cs } hf0
    (allTrackingList_setTrackingList true cs) hnls huls
    (fun pr hpr e he => hinstmm pr hpr e he)
  simp only [initWeights, mcount, initWeightsF, Bool.not_false, Bool.false_eq_true,
             if_true, if_false, hcr, splitRules, runRules]
  simp only [he1, Bool.false_eq_true, if_false, hg1, finalizeInit_reports]
  refine ⟨trivial, ?_⟩
  simp only [allParams, hp1, allParamsList_setTrackingList]
  have hR : ({ emptyGlobal with tracking := installEntries name ps cs } : Global).reports = [] := rfl
  rw [hR, List.nil_append]
  congr 1
  apply List.map_congr_left
  intro pr hpr
  have hany : (ps ++ allParamsList cs).any (fun pr0 => pr0.pid == pr.pid) = true :=
    List.any_eq_true.mpr ⟨pr, hpr, by simp⟩
  have hlk := lookupInfo_mapInstall (ps ++ allParamsList cs) name pr.pid hany
  rw [show (installEntries name ps cs : TrackMap) =
      (ps ++ allParamsList cs).map
        (fun pr0 => (pr0.pid, { initInfo := defaultInfo name, tmpMean := pr0.value })) from rfl]
  rw [hlk]

mutual

theorem specTrace_apply_mem (p p' : List Nat) (r : Rule) :
    ∀ m : Module, Event.applyRule p' r ∈ specTrace p m →
      (p' = p ∧ r ∈ cfgRules m.cfg) ∨ p.length < p'.length
| .mk name cfg inited ht ps cs, hm => by
  simp only [specTrace] at hm
  cases hi : inited with
  | true =>
    rw [hi, if_pos rfl] at hm
    simp at hm
  | false =>
    rw [hi] at hm
    simp only [Bool.false_eq_true, if_false, List.mem_append, List.mem_map] at hm
    rcases hm with (⟨r0, hr0, he⟩ | hm2) | ⟨r0, hr0, he⟩
    · injection he with he1 he2
      exact Or.inl ⟨he1.symm, by rw [← he2]; exact splitRules_mem_left hr0⟩
    · exact Or.inr (specChildren_apply_len p p' r 0 cs hm2)
    · injection he with he1 he2
      exact Or.inl ⟨he1.symm, by rw [← he2]; exact splitRules_mem_right hr0⟩

theorem specChildren_apply_len (p p' : List Nat) (r : Rule) :
    ∀ (i : Nat) (cs : List Module), Event.applyRule p' r ∈ specChildren p i cs →
      p.length < p'.length
| i, c :: rest, hm => by
  simp only [specChildren, List.mem_append] at hm
  rcases hm with hm1 | hm2
  · cases hic : c.isInit with
    | true => rw [hic, if_pos rfl] at hm1; simp at hm1
    | false =>
      rw [hic] at hm1
      simp only [Bool.false_eq_true, if_false] at hm1
      rcases specTrace_apply_mem (p ++ [i]) p' r c hm1 with ⟨he, _⟩ | hlen
      · subst he; simp
      · simp only [List.length_append, List.length_cons, List.length_nil] at hlen
        omega
  · exact specChildren_apply_len p p' r (i + 1) rest hm2

end

/-!
Heap model for `copy.deepcopy` (claim C10).  The `init_cfg` argument is a
mutable Python object graph: dicts and lists hold heap addresses of their
members.  A heap is a list of cells, the address is the index, allocation
appends, mutation overwrites an index in place.
-/

/-- A heap object of the config graph: an opaque scalar, a list of member
addresses, or a dict of member addresses. -/
inductive PyObj where
| atom (v : Nat) : PyObj
| plist (elems : List Nat) : PyObj
| pdict (entries : List (String × Nat)) : PyObj
deriving DecidableEq, Repr

/-- The mutable heap: address = index, allocation appends, mutation sets. -/
abbrev Heap := List PyObj

/-- The immutable structural value of a config object (what equality "up to
structure" compares). -/
inductive CfgVal where
| atom (v : Nat) : CfgVal
| vlist (elems : List CfgVal) : CfgVal
| vdict (entries : List (String × CfgVal)) : CfgVal

/-- Resolves a list of addresses with the given resolver, failing if any
member fails. -/
def resolveList (f : Nat → Option CfgVal) : List Nat → Option (List CfgVal)
| [] => some []
| a :: rest =>
  match f a, resolveList f rest with
  | some v, some vs => some (v :: vs)
  | _, _ => none

/-- Resolves dict entries with the given resolver. -/
def resolveEntries (f : Nat → Option CfgVal) : List (String × Nat) → Option (List (String × CfgVal))
| [] => some []
| (k, a) :: rest =>
  match f a, resolveEntries f rest with
  | some v, some vs => some ((k, v) :: vs)
  | _, _ => none

/-- Resolves the structural value of the object at address `a`; the fuel
bounds the depth (an acyclic graph resolves with any sufficient fuel, a
dangling address or exhausted fuel gives `none`). -/
def resolveV : Nat → Heap → Nat → Option CfgVal
| 0, _, _ => none
| Nat.succ n, h, a =>
  match h.get? a with
  | none => none
  | some (.atom v) => some (.atom v)
  | some (.plist xs) => (resolveList (resolveV n h) xs).map CfgVal.vlist
  | some (.pdict es) => (resolveEntries (resolveV n h) es).map CfgVal.vdict

mutual

/-- Rebuilds a structural value at fresh heap addresses (members first, then
the node), returning the extended heap and the address of the rebuilt root. -/
def allocVal : CfgVal → Heap → Heap × Nat
| .atom v, h => (h ++ [.atom v], h.length)
| .vlist xs, h =>
  let r := allocElems xs h
  (r.1 ++ [.plist r.2], r.1.length)
| .vdict es, h =>
  let r := allocEntries es h
  (r.1 ++ [.pdict r.2], r.1.length)

/-- Rebuilds a list of values, left to right. -/
def allocElems : List CfgVal → Heap → Heap × List Nat
| [], h => (h, [])
| v :: rest, h =>
  let r1 := allocVal v h
  let r2 := allocElems rest r1.1
  (r2.1, r1.2 :: r2.2)

/-- Rebuilds dict entries, left to right. -/
def allocEntries : List (String × CfgVal) → Heap → Heap × List (String × Nat)
| [], h => (h, [])
| (k, v) :: rest, h =>
  let r1 := allocVal v h
  let r2 := allocEntries rest r1.1
  (r2.1, (k, r1.2) :: r2.2)

end

mutual

/-- Depth of a structural value (the fuel needed to resolve it back). -/
def vdepth : CfgVal → Nat
| .atom _ => 1
| .vlist xs => ldepth xs + 1
| .vdict es => edepth es + 1

/-- Depth of a list of values. -/
def ldepth : List CfgVal → Nat
| [] => 0
| v :: rest => max (vdepth v) (ldepth rest)

/-- Depth of dict entries. -/
def edepth : List (String × CfgVal) → Nat
| [] => 0
| (_, v) :: rest => max (vdepth v) (edepth rest)

end

mutual

theorem allocVal_spec : ∀ (v : CfgVal) (h : Heap),
    h.length ≤ (allocVal v h).2 ∧
    (allocVal v h).2 < (allocVal v h).1.length ∧
    (∀ j, j < h.length → (allocVal v h).1.get? j = h.get? j) ∧
    (∀ (h2 : Heap) (n : Nat), vdepth v ≤ n →
      (∀ j, h.length ≤ j → j < (allocVal v h).1.length → h2.get? j = (allocVal v h).1.get? j) →
      resolveV n h2 (allocVal v h).2 = some v)
| .atom v0, h => by
  simp only [allocVal]
  refine ⟨le_refl _, by simp, ?_, ?_⟩
  · intro j hj
    exact List.get?_append hj
  · intro h2 n hn hagr
    have hd : vdepth (.atom v0) = 1 := rfl
    rw [hd] at hn
    cases n with
    | zero => omega
    | succ n' =>
      have hcell : h2.get? h.length = some (.atom v0) := by
        rw [hagr h.length (le_refl _) (by simp), List.get?_concat_length]
      simp only [resolveV, hcell]
| .vlist xs, h => by
  obtain ⟨hlen, hold, hres⟩ := allocElems_spec xs h
  simp only [allocVal]
  have hlt : h.length ≤ (allocElems xs h).1.length := hlen
  refine ⟨hlt, by simp, ?_, ?_⟩
  · intro j hj
    rw [List.get?_append (by omega), hold j hj]
  · intro h2 n hn hagr
    have hd : vdepth (.vlist xs) = ldepth xs + 1 := rfl
    rw [hd] at hn
    cases n with
    | zero => omega
    | succ n' =>
      have hcell : h2.get? (allocElems xs h).1.length = some (.plist (allocElems xs h).2) := by
        rw [hagr (allocElems xs h).1.length (by omega) (by simp), List.get?_concat_length]
      simp only [resolveV, hcell]
      rw [hres h2 n' (by omega) ?_]
      · rfl
      · intro j hj1 hj2
        rw [hagr j hj1 (by simp; omega), List.get?_append hj2]
| .vdict es, h => by
  obtain ⟨hlen, hold, hres⟩ := allocEntries_spec es h
  simp only [allocVal]
  have hlt : h.length ≤ (allocEntries es h).1.length := hlen
  refine ⟨hlt, by simp, ?_, ?_⟩
  · intro j hj
    rw [List.get?_append (by omega), hold j hj]
  · intro h2 n hn hagr
    have hd : vdepth (.vdict es) = edepth es + 1 := rfl
    rw [hd] at hn
    cases n with
    | zero => omega
    | succ n' =>
      have hcell : h2.get? (allocEntries es h).1.length = some (.pdict (allocEntries es h).2) := by
        rw [hagr (allocEntries es h).1.length (by omega) (by simp), List.get?_concat_length]
      simp only [resolveV, hcell]
      rw [hres h2 n' (by omega) ?_]
      · rfl
      · intro j hj1 hj2
        rw [hagr j hj1 (by simp; omega), List.get?_append hj2]

theorem allocElems_spec : ∀ (xs : List CfgVal) (h : Heap),
    h.length ≤ (allocElems xs h).1.length ∧
    (∀ j, j < h.length → (allocElems xs h).1.get? j = h.get? j) ∧
    (∀ (h2 : Heap) (n : Nat), ldepth xs ≤ n →
      (∀ j, h.length ≤ j → j < (allocElems xs h).1.length → h2.get? j = (allocElems xs h).1.get? j) →
      resolveList (resolveV n h2) (allocElems xs h).2 = some xs)
| [], h => ⟨le_refl _, fun j _ => rfl, fun h2 n _ _ => rfl⟩
| v :: rest, h => by
  obtain ⟨ha1, ha2, ha3, ha4⟩ := allocVal_spec v h
  obtain ⟨hb1, hb2, hb4⟩ := allocElems_spec rest (allocVal v h).1
  simp only [allocElems]
  have hlen0 : h.length ≤ (allocVal v h).1.length := by omega
  refine ⟨le_trans hlen0 hb1, ?_, ?_⟩
  · intro j hj
    rw [hb2 j (by omega), ha3 j hj]
  · intro h2 n hn hagr
    have hdep : max (vdepth v) (ldepth rest) ≤ n := hn
    have hhead : resolveV n h2 (allocVal v h).2 = some v := by
      apply ha4 h2 n (by omega)
      intro j hj1 hj2
      rw [hagr j hj1 (by omega), hb2 j hj2]
    have htail : resolveList (resolveV n h2) (allocElems rest (allocVal v h).1).2 = some rest := by
      apply hb4 h2 n (by omega)
      intro j hj1 hj2
      exact hagr j (by omega) hj2
    simp only [resolveList, hhead, htail]

theorem allocEntries_spec : ∀ (es : List (String × CfgVal)) (h : Heap),
    h.length ≤ (allocEntries es h).1.length ∧
    (∀ j, j < h.length → (allocEntries es h).1.get? j = h.get? j) ∧
    (∀ (h2 : Heap) (n : Nat), edepth es ≤ n →
      (∀ j, h.length ≤ j → j < (allocEntries es h).1.length → h2.get? j = (allocEntries es h).1.get? j) →
      resolveEntries (resolveV n h2) (allocEntries es h).2 = some es)
| [], h => ⟨le_refl _, fun j _ => rfl, fun h2 n _ _ => rfl⟩
| (k, v) :: rest, h => by
  obtain ⟨ha1, ha2, ha3, ha4⟩ := allocVal_spec v h
  obtain ⟨hb1, hb2, hb4⟩ := allocEntries_spec rest (allocVal v h).1
  simp only [allocEntries]
  have hlen0 : h.length ≤ (allocVal v h).1.length := by omega
  refine ⟨le_trans hlen0 hb1, ?_, ?_⟩
  · intro j hj
    rw [hb2 j (by omega), ha3 j hj]
  · intro h2 n hn hagr
    have hdep : max (vdepth v) (edepth rest) ≤ n := hn
    have hhead : resolveV n h2 (allocVal v h).2 = some v := by
      apply ha4 h2 n (by omega)
      intro j hj1 hj2
      rw [hagr j hj1 (by omega), hb2 j hj2]
    have htail : resolveEntries (resolveV n h2) (allocEntries rest (allocVal v h).1).2 = some rest := by
      apply hb4 h2 n (by omega)
      intro j hj1 hj2
      exact hagr j (by omega) hj2
    simp only [resolveEntries, hhead, htail]

end

/-- Embedding of `copy.deepcopy(init_cfg)` (line 27 of `base_module.py`) on an
acyclic config object graph: the value reachable from `a` is resolved and
rebuilt at fresh addresses appended to the heap, so the copy shares no mutable
cell with any pre-existing object.  Fails (`none`) when the fuel cannot
resolve the graph. -/
def pyDeepcopy (fuel : Nat) (h : Heap) (a : Nat) : Option (Heap × Nat) :=
  match resolveV fuel h a with
  | some v => some (allocVal v h)
  | none => none

/-- Embedding of `BaseModule.__init__`: `self.init_cfg = copy.deepcopy(init_cfg)`
and `self._is_init = False`; `none` models `init_cfg=None`.  Returns the heap
after the copy and the stored address. -/
def baseModuleInit (fuel : Nat) (h : Heap) (a : Option Nat) : Option (Heap × Option Nat) :=
  match a with
  | none => some (h, none)
  | some a0 =>
    match pyDeepcopy fuel h a0 with
    | some r => some (r.1, some r.2)
    | none => none

/-!
Concrete sample data for counterexamples and witnesses.
-/

/-- A non-pretrained rule that dispatches successfully. -/
def stdRule (k : Nat) : Rule := { isPretrained := false, fails := false, rid := k }

/-- A Pretrained (override) rule that dispatches successfully. -/
def preRule (k : Nat) : Rule := { isPretrained := true, fails := false, rid := k }

/-- A rule whose dispatch raises a `DispatchError`. -/
def badRule (k : Nat) : Rule := { isPretrained := false, fails := true, rid := k }

/-- An already-initialized root with a fresh, uninitialized child (the state
after a first `initializeTree` call followed by adding a new child). -/
def exC1 : Module :=
  .mk "R" .noCfg true false [] [.mk "C" (.single (stdRule 1)) false false [⟨0, 0⟩] []]

/-- A fresh two-child tree with Standard and Override rules at the root. -/
def exC2 : Module :=
  .mk "R" (.ofList [stdRule 1, preRule 2]) false false [⟨0, 0⟩]
    [.mk "A" (.single (stdRule 3)) false false [⟨1, 0⟩] [],
     .mk "B" (.single (preRule 4)) false false [⟨2, 0⟩] []]

/-- A fresh tree whose root rule fails to dispatch. -/
def exC3 : Module :=
  .mk "R" (.single (badRule 1)) false false [⟨0, 0⟩] [.mk "C" .noCfg false false [] []]

/-- A fresh tree that initializes successfully. -/
def exC3w : Module :=
  .mk "R" (.single (stdRule 1)) false false [⟨0, 0⟩] [.mk "C" (.single (preRule 2)) false false [⟨1, 0⟩] []]

/-- A tree with a pre-initialized interior node shielding a fresh grandchild. -/
def exC4 : Module :=
  .mk "R" .noCfg false false [] [.mk "C" .noCfg true false [] [.mk "D" .noCfg false false [] []]]

/-- A fresh three-child tree whose middle child fails to dispatch. -/
def exC5 : Module :=
  .mk "R" .noCfg false false []
    [.mk "A" (.single (stdRule 1)) false false [⟨0, 0⟩] [],
     .mk "B" (.single (badRule 2)) false false [⟨1, 0⟩] [],
     .mk "C" (.single (stdRule 3)) false false [⟨2, 0⟩] []]

/-- C1, counterexample: on the code, a second `init_weights` call on an
already-initialized root returns at the idempotency guard before the child
loop, so a new uninitialized child is NOT initialized by that call — the
claim's "every direct child of the root that is not yet initialized is still
initialized by that call" is false.  Before the call the root is initialized
and the child is not; the call succeeds, applies no rule, and leaves the
child uninitialized. -/
theorem C1_counterexample :
    exC1.isInit = true ∧ isInitAt exC1 [0] = false ∧
    (initWeights [] emptyGlobal exC1).2.2 = false ∧
    isInitAt (initWeights [] emptyGlobal exC1).2.1 [0] = false ∧
    (initWeights [] emptyGlobal exC1).1.events = [Event.warn (warnMsg "R")] := by
  decide

/-- C1, amended: calling `init_weights` again on a root whose `initialized`
flag is already true emits the double-initialization warning and is a no-op
for the whole tree's rules and flags: it installs a fresh tracking map, warns,
finalizes (top level), and returns without initializing any child —
uninitialized children, new or old, remain uninitialized and no Override rule
is re-applied. -/
theorem C1_reinit_skips_children :
    ∀ (m : Module) (p : List Nat) (g : Global),
    m.hasTracking = false → m.isInit = true →
    (initWeights p g m).2.2 = false ∧
    (initWeights p g m).1.events = g.events ++ [Event.warn (warnMsg m.name)] ∧
    (∀ q : List Nat, isInitAt (initWeights p g m).2.1 q = isInitAt m q) ∧
    allTracking false (initWeights p g m).2.1 = true := by
  intro m p g ht hi
  obtain ⟨h1, h2, _, h4, h5, _⟩ := initWeights_warn_path m p g ht hi
  exact ⟨h1, h2, h5, h4⟩

/-- C1, witness for the amended claim at the concrete tree `exC1`. -/
theorem C1_witness :
    exC1.hasTracking = false ∧ exC1.isInit = true ∧
    (initWeights [] emptyGlobal exC1).2.2 = false ∧
    (initWeights [] emptyGlobal exC1).1.events =
      emptyGlobal.events ++ [Event.warn (warnMsg exC1.name)] ∧
    isInitAt (initWeights [] emptyGlobal exC1).2.1 [0] = isInitAt exC1 [0] ∧
    allTracking false (initWeights [] emptyGlobal exC1).2.1 = true :=
  ⟨rfl, rfl,
   (C1_reinit_skips_children exC1 [] emptyGlobal rfl rfl).1,
   (C1_reinit_skips_children exC1 [] emptyGlobal rfl rfl).2.1,
   (C1_reinit_skips_children exC1 [] emptyGlobal rfl rfl).2.2.1 [0],
   (C1_reinit_skips_children exC1 [] emptyGlobal rfl rfl).2.2.2⟩

/-- C2: on any successful top-level call, the event log equals the
specification-ordered trace `specTrace`: at every visited node, the node's
Standard rules are applied in original order before anything of its children,
the children are processed recursively in left-to-right declaration order,
and the node's Override (Pretrained) rules are applied last, in original
order — the ordering invariant at every level of nesting, deterministically. -/
theorem C2_ordering :
    ∀ m : Module, (initWeights [] emptyGlobal m).2.2 = false →
    (initWeights [] emptyGlobal m).1.events = specTrace [] m := by
  intro m h
  have he := initWeightsF_events (mcount m) m [] emptyGlobal (le_refl _) h
  rw [show (emptyGlobal.events : List Event) = [] from rfl, List.nil_append] at he
  exact he

/-- C2, witness: at `exC2` the run succeeds and the log is exactly root
Standard rule, first child's rule, second child's rule, root Override rule. -/
theorem C2_witness :
    (initWeights [] emptyGlobal exC2).2.2 = false ∧
    (initWeights [] emptyGlobal exC2).1.events = specTrace [] exC2 ∧
    specTrace [] exC2 =
      [.applyRule [] (stdRule 1), .applyRule [0] (stdRule 3),
       .applyRule [1] (preRule 4), .applyRule [] (preRule 2)] :=
  ⟨by decide, C2_ordering exC2 (by decide), by decide⟩

/-- C3, counterexample: when rule dispatch fails, `_finalize_init` never runs,
so the tracking map is NOT destroyed: before the call no node carries
`_params_init_info`, the call finishes by a dispatch failure, and afterwards
every node still carries the map — the claim's "absent after the call
finishes, including when the call finishes by a rule-dispatch failure" is
false on the code. -/
theorem C3_counterexample :
    allTracking false exC3 = true ∧
    (initWeights [] emptyGlobal exC3).2.2 = true ∧
    allTracking true (initWeights [] emptyGlobal exC3).2.1 = true := by
  decide

/-- C3, amended: during a top-level call the map is installed on every node at
entry; when the call finishes normally (including the warning path) it is
destroyed exactly once by the finalizer and absent from every node, but when
the call finishes by a rule-dispatch failure the map remains installed on
every node of the tree. -/
theorem C3_tracking_lifecycle :
    ∀ (m : Module) (p : List Nat) (g : Global),
    m.hasTracking = false →
    ((initWeights p g m).2.2 = false → allTracking false (initWeights p g m).2.1 = true) ∧
    ((initWeights p g m).2.2 = true → allTracking true (initWeights p g m).2.1 = true) := by
  intro m p g ht
  exact ⟨initWeightsF_top_tracking (mcount m) m p g (le_refl _) ht,
         initWeightsF_top_fail_tracking (mcount m) m p g (le_refl _) ht⟩

/-- C3, witness for the amended claim: a successful run tears the map down. -/
theorem C3_witness :
    exC3w.hasTracking = false ∧
    (initWeights [] emptyGlobal exC3w).2.2 = false ∧
    allTracking false (initWeights [] emptyGlobal exC3w).2.1 = true :=
  ⟨rfl, by decide, (C3_tracking_lifecycle exC3w [] emptyGlobal rfl).1 (by decide)⟩

/-- C4, counterexample: on a tree whose interior child is already initialized,
a successful top-level call skips that child entirely, so its fresh grandchild
stays uninitialized — the claim's "after one successful top-level call on ANY
tree, every node has initialized == true" is false on the code. -/
theorem C4_counterexample :
    (initWeights [] emptyGlobal exC4).2.2 = false ∧
    isInitAt (initWeights [] emptyGlobal exC4).2.1 [0, 0] = false := by
  decide

/-- C4, amended: after one successful top-level call on a tree all of whose
nodes are initially uninitialized, every node's `initialized` flag is true and
the tracking map is absent from every node. -/
theorem C4_fresh_tree :
    ∀ m : Module, m.hasTracking = false → allUninit m = true →
    (initWeights [] emptyGlobal m).2.2 = false →
    allInit (initWeights [] emptyGlobal m).2.1 = true ∧
    allTracking false (initWeights [] emptyGlobal m).2.1 = true := by
  intro m ht hu hok
  exact ⟨initWeightsF_allInit (mcount m) m [] emptyGlobal (le_refl _) hu hok,
         initWeightsF_top_tracking (mcount m) m [] emptyGlobal (le_refl _) ht hok⟩

/-- C4, witness for the amended claim at the concrete fresh tree `exC3w`. -/
theorem C4_witness :
    exC3w.hasTracking = false ∧ allUninit exC3w = true ∧
    (initWeights [] emptyGlobal exC3w).2.2 = false ∧
    allInit (initWeights [] emptyGlobal exC3w).2.1 = true ∧
    allTracking false (initWeights [] emptyGlobal exC3w).2.1 = true :=
  ⟨rfl, by decide, by decide,
   (C4_fresh_tree exC3w rfl (by decide) (by decide)).1,
   (C4_fresh_tree exC3w rfl (by decide) (by decide)).2⟩

/-- C5: when rule dispatch fails during a top-level call on a fresh tree, the
failure propagates immediately with no internal retry: there is a failing node
(one of its declared rules fails) such that every node strictly after it in
depth-first completion order still has `initialized = false`; the flags of the
nodes that completed before the failure are exactly what the returned tree
records (they are never reset, by C8's monotonicity). -/
theorem C5_failure_aborts :
    ∀ m : Module, m.hasTracking = false → allUninit m = true →
    (initWeights [] emptyGlobal m).2.2 = true →
    ∃ pf, (∃ nf, nodeAt (initWeights [] emptyGlobal m).2.1 pf = some nf ∧
        (cfgRules nf.cfg).any (fun r => r.fails) = true) ∧
      ∀ q, postLater pf q = true → isInitAt (initWeights [] emptyGlobal m).2.1 q = false := by
  intro m _ hu herr
  exact initWeightsF_fail_after (mcount m) m [] emptyGlobal (le_refl _) hu herr

/-- C5, witness: in `exC5` the middle child's rule fails; the earlier sibling
is initialized, the later sibling and the root are not. -/
theorem C5_witness :
    exC5.hasTracking = false ∧ allUninit exC5 = true ∧
    (initWeights [] emptyGlobal exC5).2.2 = true ∧
    (∃ pf, (∃ nf, nodeAt (initWeights [] emptyGlobal exC5).2.1 pf = some nf ∧
        (cfgRules nf.cfg).any (fun r => r.fails) = true) ∧
      ∀ q, postLater pf q = true → isInitAt (initWeights [] emptyGlobal exC5).2.1 q = false) ∧
    isInitAt (initWeights [] emptyGlobal exC5).2.1 [0] = true ∧
    isInitAt (initWeights [] emptyGlobal exC5).2.1 [1] = false ∧
    isInitAt (initWeights [] emptyGlobal exC5).2.1 [2] = false ∧
    isInitAt (initWeights [] emptyGlobal exC5).2.1 [] = false :=
  ⟨rfl, by decide, by decide,
   C5_failure_aborts exC5 rfl (by decide) (by decide),
   by decide, by decide, by decide, by decide⟩

/-- An already-fully-initialized two-node tree with no tracking (the state
after a completed first call). -/
def exC6 : Module :=
  .mk "R" (.single (stdRule 1)) true false [⟨0, 5⟩] [.mk "C" .noCfg true false [⟨1, 6⟩] []]

/-- C6: calling `init_weights` a second time on an already-fully-initialized
tree with no new children applies zero initialization rules, emits exactly one
warning record — for the root, the only node touched — with the source's
message `"<name>.init_weights() called multiple times."`, and, the touched
node being top-level, still proceeds to finalization: it emits one fresh
provenance report and tears the fresh tracking map down before returning. -/
theorem C6_second_call_idempotent :
    ∀ m : Module, m.hasTracking = false → allInit m = true →
    (initWeights [] emptyGlobal m).2.2 = false ∧
    (initWeights [] emptyGlobal m).1.events = [Event.warn (warnMsg m.name)] ∧
    (∀ (pr : List Nat) (r : Rule), Event.applyRule pr r ∉ (initWeights [] emptyGlobal m).1.events) ∧
    (initWeights [] emptyGlobal m).1.reports.length = 1 ∧
    allTracking false (initWeights [] emptyGlobal m).2.1 = true ∧
    allInit (initWeights [] emptyGlobal m).2.1 = true := by
  intro m ht hI
  have hi : m.isInit = true := by
    obtain ⟨n0, c0, i0, t0, ps0, cs0⟩ := m
    simp only [allInit, Bool.and_eq_true] at hI
    simpa [Module.isInit] using hI.1
  obtain ⟨h1, h2, h3, h4, h5, h6⟩ := initWeights_warn_path m [] emptyGlobal ht hi
  have hev : (initWeights [] emptyGlobal m).1.events = [Event.warn (warnMsg m.name)] := by
    rw [h2]; rfl
  refine ⟨h1, hev, ?_, ?_, h4, ?_⟩
  · intro pr r hmem
    rw [hev] at hmem
    simp at hmem
  · rw [h3]
    rfl
  · rw [h6, allInit_setTrackingAll]
    obtain ⟨n0, c0, i0, t0, ps0, cs0⟩ := m
    simp only [allInit, Bool.and_eq_true] at hI
    simp only [Module.name, Module.cfg, Module.isInit, Module.params, Module.children]
    simp [allInit, allInitList_setTrackingList, hI.1, hI.2]

/-- C6, witness at the concrete tree `exC6`. -/
theorem C6_witness :
    exC6.hasTracking = false ∧ allInit exC6 = true ∧
    (initWeights [] emptyGlobal exC6).2.2 = false ∧
    (initWeights [] emptyGlobal exC6).1.events = [Event.warn (warnMsg exC6.name)] ∧
    (initWeights [] emptyGlobal exC6).1.reports.length = 1 ∧
    allTracking false (initWeights [] emptyGlobal exC6).2.1 = true ∧
    allInit (initWeights [] emptyGlobal exC6).2.1 = true :=
  ⟨rfl, by decide,
   (C6_second_call_idempotent exC6 rfl (by decide)).1,
   (C6_second_call_idempotent exC6 rfl (by decide)).2.1,
   (C6_second_call_idempotent exC6 rfl (by decide)).2.2.2.1,
   (C6_second_call_idempotent exC6 rfl (by decide)).2.2.2.2.1,
   (C6_second_call_idempotent exC6 rfl (by decide)).2.2.2.2.2⟩

/-- A root with no rules whose child carries a rule (no application may target
the root's own position). -/
def exC7 : Module :=
  .mk "R" .noCfg false false [⟨0, 0⟩] [.mk "C" (.single (stdRule 1)) false false [⟨1, 0⟩] []]

/-- C7: rule partitioning — every rule not tagged Pretrained is treated as
Standard and every Pretrained rule as Override, each group keeping its
original relative order (the split equals the two order-preserving filters); a
single non-list `init_cfg` is treated as the one-rule sequence `[r]`; an
absent (`None`) or empty-list `init_cfg` contributes no rules, and a node with
no effective rules gets no rule application at its own position in any
successful run. -/
theorem C7_rule_partitioning :
    (∀ rs : List Rule, (splitRules rs).1 = rs.filter (fun r => !r.isPretrained) ∧
        (splitRules rs).2 = rs.filter (fun r => r.isPretrained)) ∧
    (∀ r : Rule, cfgRules (.single r) = [r]) ∧
    (cfgRules .noCfg = [] ∧ cfgRules (.ofList []) = []) ∧
    (∀ m : Module, cfgRules m.cfg = [] →
      (initWeights [] emptyGlobal m).2.2 = false →
      ∀ r : Rule, Event.applyRule [] r ∉ (initWeights [] emptyGlobal m).1.events) := by
  refine ⟨?_, fun r => rfl, ⟨rfl, rfl⟩, ?_⟩
  · intro rs
    induction rs with
    | nil => exact ⟨rfl, rfl⟩
    | cons r rest ih =>
      cases hp : r.isPretrained with
      | true => simp [splitRules, List.filter_cons, hp, ih.1, ih.2]
      | false => simp [splitRules, List.filter_cons, hp, ih.1, ih.2]
  · intro m hcr hok r hmem
    have he := initWeightsF_events (mcount m) m [] emptyGlobal (le_refl _) hok
    rw [show (emptyGlobal.events : List Event) = [] from rfl, List.nil_append] at he
    rw [show (initWeights [] emptyGlobal m : Global × Module × Bool) =
        initWeightsF (mcount m) [] emptyGlobal m from rfl] at hmem
    rw [he] at hmem
    rcases specTrace_apply_mem [] [] r m hmem with ⟨_, hr⟩ | hlen
    · rw [hcr] at hr
      simp at hr
    · simp at hlen

/-- C7, witness: concrete split, single-rule wrapping, and a run on `exC7`
whose root has no rules and receives no application at its own position. -/
theorem C7_witness :
    (splitRules [stdRule 1, preRule 2, stdRule 3]).1 = [stdRule 1, stdRule 3] ∧
    (splitRules [stdRule 1, preRule 2, stdRule 3]).2 = [preRule 2] ∧
    cfgRules (.single (stdRule 1)) = [stdRule 1] ∧
    cfgRules exC7.cfg = [] ∧
    (initWeights [] emptyGlobal exC7).2.2 = false ∧
    (∀ r : Rule, Event.applyRule [] r ∉ (initWeights [] emptyGlobal exC7).1.events) ∧
    (initWeights [] emptyGlobal exC7).1.events = [.applyRule [0] (stdRule 1)] :=
  ⟨(C7_rule_partitioning.1 [stdRule 1, preRule 2, stdRule 3]).1.trans (by decide),
   (C7_rule_partitioning.1 [stdRule 1, preRule 2, stdRule 3]).2.trans (by decide),
   C7_rule_partitioning.2.1 (stdRule 1),
   rfl, by decide,
   C7_rule_partitioning.2.2.2 exC7 rfl (by decide),
   by decide⟩

/-- C8: the `initialized` flag of every node is monotone — once true it is
never reset by any engine operation: any further `init_weights` call on any
node keeps every true flag true, and finalization never changes any flag. -/
theorem C8_flag_monotone :
    (∀ (m : Module) (p : List Nat) (g : Global) (q : List Nat),
        isInitAt m q = true → isInitAt (initWeights p g m).2.1 q = true) ∧
    (∀ (g : Global) (m : Module) (q : List Nat),
        isInitAt (finalizeInit g m).2 q = isInitAt m q) := by
  constructor
  · intro m p g q h
    exact initWeightsF_isInit_mono (mcount m) m p g q h
  · intro g m q
    rw [finalizeInit_module, isInitAt_setTrackingAll]

/-- C8, witness: the initialized root of `exC1` stays initialized through a
second call, and finalization preserves the child's flag. -/
theorem C8_witness :
    isInitAt exC1 [] = true ∧
    isInitAt (initWeights [] emptyGlobal exC1).2.1 [] = true ∧
    isInitAt (finalizeInit emptyGlobal exC1).2 [0] = isInitAt exC1 [0] :=
  ⟨by decide,
   C8_flag_monotone.1 exC1 [] emptyGlobal [] (by decide),
   C8_flag_monotone.2 emptyGlobal exC1 [0]⟩

/-- A fresh no-rules tree: root "R" and child "C" each own one parameter. -/
def exC9a : Module :=
  .mk "R" .noCfg false false [⟨0, 5⟩] [.mk "C" .noCfg false false [⟨1, 7⟩] []]

/-- A fresh root whose rule overwrites its parameter value. -/
def exC9b : Module :=
  .mk "R" (.single (stdRule 9)) false false [⟨0, 5⟩] []

/-- C9: the default provenance entries created at tracking installation name
the top-level node for every parameter of the tree — parameters owned by
descendants included, not their owner's class — as the provenance report of a
run that applies no rule shows verbatim; and the snapshot mean of every
parameter is the parameter's value at top-level entry, before any rule runs:
after any top-level call, failed or not, with or without rules, the recorded
snapshots still equal the pre-call values. -/
theorem C9_provenance_install :
    (∀ m : Module, m.hasTracking = false → noRulesAll m = true → allUninit m = true →
      ((allParams m).map Param.pid).Nodup →
      (initWeights [] emptyGlobal m).2.2 = false ∧
      (initWeights [] emptyGlobal m).1.reports =
        [(allParams m).map (fun pr => (pr.pid, defaultInfo m.name))]) ∧
    (∀ (m : Module) (p : List Nat) (g : Global), m.hasTracking = false →
      meansOf (initWeights p g m).1.tracking =
        (allParams m).map (fun pr => (pr.pid, pr.value))) := by
  constructor
  · exact initWeights_noRules_report
  · intro m p g ht
    obtain ⟨n0, c0, i0, t0, ps0, cs0⟩ := m
    have hm := initWeightsF_means_top (lcount cs0 + 1) (.mk n0 c0 i0 t0 ps0 cs0) p g
      (le_refl _) ht
    rw [show (initWeights p g (.mk n0 c0 i0 t0 ps0 cs0) : Global × Module × Bool) =
        initWeightsF (lcount cs0 + 1) p g (.mk n0 c0 i0 t0 ps0 cs0) from rfl]
    rw [hm, meansOf_installEntries]
    rfl

/-- C9, witness: in the no-rules tree both parameters' report lines carry the
root's name "R" (the child's parameter included), and in the rule-carrying
tree the recorded snapshot is the pre-call value 5 even though the rule set
the parameter to 9. -/
theorem C9_witness :
    exC9a.hasTracking = false ∧ noRulesAll exC9a = true ∧ allUninit exC9a = true ∧
    ((allParams exC9a).map Param.pid).Nodup ∧
    (initWeights [] emptyGlobal exC9a).1.reports =
      [(allParams exC9a).map (fun pr => (pr.pid, defaultInfo exC9a.name))] ∧
    (initWeights [] emptyGlobal exC9a).1.reports =
      [[(0, defaultInfo "R"), (1, defaultInfo "R")]] ∧
    meansOf (initWeights [] emptyGlobal exC9b).1.tracking =
      (allParams exC9b).map (fun pr => (pr.pid, pr.value)) ∧
    meansOf (initWeights [] emptyGlobal exC9b).1.tracking = [(0, 5)] ∧
    (initWeights [] emptyGlobal exC9b).2.1.params = [⟨0, 9⟩] :=
  ⟨rfl, by decide, by decide, by decide,
   (C9_provenance_install.1 exC9a rfl (by decide) (by decide) (by decide)).2,
   by decide,
   C9_provenance_install.2 exC9b [] emptyGlobal rfl,
   by decide, by decide⟩

/-- C10: `BaseModule.__init__` stores a deep copy of `init_cfg`: for any
(acyclic) config object, the copy resolves to the same structural value as the
argument at construction time, and any later in-place mutation of any
pre-existing heap cell — in particular any cell of the caller's original
object — leaves the stored copy's resolved value unchanged, so two runs of any
later `init_weights` call that differ only in such a post-construction
mutation behave identically. -/
theorem C10_deepcopy_isolation :
    ∀ (fuel : Nat) (h : Heap) (a : Nat) (v : CfgVal) (h2 : Heap) (a2 : Nat),
    resolveV fuel h a = some v →
    pyDeepcopy fuel h a = some (h2, a2) →
    (resolveV (vdepth v) h2 a2 = some v) ∧
    (∀ (i : Nat) (obj : PyObj), i < h.length →
      resolveV (vdepth v) (h2.set i obj) a2 = some v) ∧
    (∀ (interp : CfgVal → InitCfg) (nm : String) (iI hT : Bool) (ps : List Param)
        (cs : List Module) (p : List Nat) (g : Global) (i : Nat) (obj : PyObj), i < h.length →
      initWeights p g
        (.mk nm (interp ((resolveV (vdepth v) (h2.set i obj) a2).getD (.atom 0))) iI hT ps cs) =
      initWeights p g
        (.mk nm (interp ((resolveV (vdepth v) h2 a2).getD (.atom 0))) iI hT ps cs)) := by
  intro fuel h a v h2 a2 hres hcopy
  simp only [pyDeepcopy, hres] at hcopy
  injection hcopy with hcopy
  have hh : (allocVal v h).1 = h2 := congrArg Prod.fst hcopy
  have haa : (allocVal v h).2 = a2 := congrArg Prod.snd hcopy
  subst hh
  subst haa
  obtain ⟨ha1, ha2q, ha3, ha4⟩ := allocVal_spec v h
  have hc1 : resolveV (vdepth v) (allocVal v h).1 (allocVal v h).2 = some v :=
    ha4 (allocVal v h).1 (vdepth v) (le_refl _) (fun _ _ _ => rfl)
  have hc2 : ∀ (i : Nat) (obj : PyObj), i < h.length →
      resolveV (vdepth v) ((allocVal v h).1.set i obj) (allocVal v h).2 = some v := by
    intro i obj hi
    apply ha4 _ (vdepth v) (le_refl _)
    intro j hj1 hj2
    exact List.get?_set_ne obj _ (by omega)
  refine ⟨hc1, hc2, ?_⟩
  intro interp nm iI hT ps cs p g i obj hi
  rw [hc1, hc2 i obj hi]

/-- Heap holding an atom at address 0 and a dict (the caller's config) at
address 1. -/
def exHeap : Heap := [.atom 1, .pdict [("t", 0)]]

/-- The structural value of the config at address 1 of `exHeap`. -/
def exVal : CfgVal := .vdict [("t", .atom 1)]

/-- C10, witness: the copy of the dict at address 1 resolves to the same value,
also after mutating cell 0 of the original object. -/
theorem C10_witness :
    resolveV 2 exHeap 1 = some exVal ∧
    pyDeepcopy 2 exHeap 1 = some ((allocVal exVal exHeap).1, (allocVal exVal exHeap).2) ∧
    resolveV (vdepth exVal) ((allocVal exVal exHeap).1.set 0 (.atom 99))
      (allocVal exVal exHeap).2 = some exVal :=
  ⟨rfl, rfl,
   (C10_deepcopy_isolation 2 exHeap 1 exVal (allocVal exVal exHeap).1
      (allocVal exVal exHeap).2 rfl rfl).2.1 0 (.atom 99) (by decide)⟩

end Perceptia
